import Mathlib

/-!
# cruwler: a verification development

A shallow embedding of `cruwler.go` (a command-line web crawler) together with
theorems about its crawl engine, its link extractor, its host comparison, its
extension test and the final deduplication pass of `main`.

Conventions of the embedding.

* Go strings are Lean `String`s.  `path.Ext` and `strings.HasPrefix` work on
  bytes in Go; the delimiters they look for (`/`, `.`) are ASCII, so working on
  characters gives the same answer on every valid UTF-8 string.
* The packages `net/url`, `net/http` and `golang.org/x/net/html` are not part of
  the repository.  The crawl engine is embedded over an arbitrary `NetURL`
  library record and an arbitrary `World` (what the network serves); a concrete
  fragment of `net/url` (`goURL`) is used only to evaluate closed examples.
* Goroutines are embedded as a pool of branch states stepped by an explicit
  schedule, one atomic action of the source per step.
-/

namespace Cruwler

/-! ## Go's `map[string]bool` and the final dedup pass of `main` -/

/-- Go `map[string]bool` as an association list, newest binding first. -/
abbrev SeenMap := List (String × Bool)

/-- Indexing `seen[u]`: a missing key reads as the zero value `false`. -/
def SeenMap.get (m : SeenMap) (k : String) : Bool :=
  match m.lookup k with
  | some b => b
  | none => false

/-- Assignment `seen[u] = b`. -/
def SeenMap.set (m : SeenMap) (k : String) (b : Bool) : SeenMap := (k, b) :: m

/-- The loop `for _, u := range urls { if !seen[u] { seen[u] = true; uniqueURLs = append(uniqueURLs, u) } }`
of `main`, with the map `seen` and the slice `uniqueURLs` passed explicitly. -/
def dedupLoop : List String → SeenMap → List String → List String
  | [], _, uniqueURLs => uniqueURLs
  | u :: rest, seen, uniqueURLs =>
    if !seen.get u then dedupLoop rest (seen.set u true) (uniqueURLs ++ [u])
    else dedupLoop rest seen uniqueURLs

/-- The "Remove duplicates" block of `main` (lines 311-319): the loop started on an
empty slice and an empty map. -/
def mainDedup (urls : List String) : List String := dedupLoop urls [] []

/-! ## `hasFileExtension` -/

/-- Loop of Go's `path.Ext`, scanning from the last character towards the first:
stop with the empty extension at a `/`, return the suffix at the first `.` met. -/
def pathExtAux : List Char → List Char → List Char
  | [], _ => []
  | c :: rest, acc =>
    if c = '/' then [] else if c = '.' then '.' :: acc else pathExtAux rest (c :: acc)

/-- Go's `path.Ext`. -/
def pathExt (s : String) : String := String.mk (pathExtAux s.data.reverse [])

/-- Go's `strings.HasPrefix`. -/
def hasPrefix (s p : String) : Bool := p.data.isPrefixOf s.data

/-- Function `hasFileExtension` of `cruwler.go` (lines 225-228). -/
def hasFileExtension (urlStr : String) : Bool :=
  let ext := pathExt urlStr
  ext != "" && !hasPrefix ext ".com" && !hasPrefix ext ".org" && !hasPrefix ext ".net"

/-- The colour `formatURL` (lines 77-82) and `writeTextOutput` pick for a line. -/
inductive Colour
  | green
  | blue
  deriving DecidableEq, Repr

/-- Function `formatURL`: green when `hasFileExtension`, blue otherwise. -/
def formatURL (url : String) : Colour × String :=
  if hasFileExtension url then (Colour.green, url ++ "\n") else (Colour.blue, url ++ "\n")

/-! ## `net/url` -/

/-- The fields of Go's `url.URL` that the program can observe (no userinfo). -/
structure URL where
  Scheme : String := ""
  Opaque : String := ""
  Host : String := ""
  Path : String := ""
  OmitHost : Bool := false
  ForceQuery : Bool := false
  RawQuery : String := ""
  Fragment : String := ""
  deriving DecidableEq, Repr

/-- The three `net/url` operations the program calls. -/
structure NetURL where
  Parse : String → Option URL
  ResolveReference : URL → URL → URL
  render : URL → String

def isLetter (c : Char) : Bool := ('a' ≤ c && c ≤ 'z') || ('A' ≤ c && c ≤ 'Z')

def isDigit (c : Char) : Bool := '0' ≤ c && c ≤ '9'

/-- Alphabet of the modelled fragment of `net/url`: on these characters no
percent-escaping or unescaping takes place in any URL component. -/
def plainChar (c : Char) : Bool :=
  isLetter c || isDigit c || c = '-' || c = '.' || c = '_' || c = '~' || c = '/' || c = ':'
    || c = '?' || c = '#' || c = '=' || c = '&'

/-- Go's `strings.Cut` for a one-character separator: text before the first
separator, text after it, and whether it was found. -/
def cutAt (sep : Char) : List Char → List Char × List Char × Bool
  | [] => ([], [], false)
  | c :: cs =>
    if c = sep then ([], cs, true)
    else
      let r := cutAt sep cs
      (c :: r.1, r.2.1, r.2.2)

/-- Loop of `getScheme`: `seen` is the number of characters already accepted. -/
def getSchemeAux (raw : List Char) : Nat → List Char → Option (List Char × List Char)
  | _, [] => some ([], raw)
  | i, c :: cs =>
    if isLetter c then getSchemeAux raw (i + 1) cs
    else if isDigit c || c = '+' || c = '-' || c = '.' then
      if i = 0 then some ([], raw) else getSchemeAux raw (i + 1) cs
    else if c = ':' then
      if i = 0 then none else some (raw.take i, cs)
    else some ([], raw)

/-- Go's `getScheme`: `(scheme, rest)`, or `none` for "missing protocol scheme". -/
def getScheme (raw : List Char) : Option (List Char × List Char) := getSchemeAux raw 0 raw

/-- Go's `validOptionalPort`: empty, or a colon followed by digits only. -/
def validOptionalPort : List Char → Bool
  | [] => true
  | c :: cs => c = ':' && cs.all isDigit

/-- The text from the last `:` on (Go: `host[strings.LastIndex(host, ":"):]`), if any. -/
def colonPort (host : List Char) : Option (List Char) :=
  if ':' ∈ host then some (':' :: (host.reverse.takeWhile (fun c => c != ':')).reverse) else none

/-- Go's `parseHost` on hosts over the plain alphabet (no brackets, no escapes). -/
def parseHost (host : List Char) : Option (List Char) :=
  match colonPort host with
  | some p => if validOptionalPort p then some host else none
  | none => some host

/-- Go's unexported `parse(rawURL, viaRequest = false)` on the plain alphabet. -/
def parseNoFragment (rawURL : List Char) : Option URL :=
  match getScheme rawURL with
  | none => none
  | some (scheme, rest0) =>
    let scheme := scheme.map Char.toLower
    let (rest, rawQuery, forceQuery) :=
      if rest0.getLast? = some '?' && rest0.count '?' = 1 then (rest0.dropLast, [], true)
      else
        let r := cutAt '?' rest0
        (r.1, r.2.1, false)
    if rest.head? ≠ some '/' && scheme ≠ [] then
      some { Scheme := String.mk scheme, Opaque := String.mk rest,
             RawQuery := String.mk rawQuery, ForceQuery := forceQuery }
    else if rest.head? ≠ some '/' && ':' ∈ (cutAt '/' rest).1 then none
    else if (scheme ≠ [] || !("///".data.isPrefixOf rest)) && "//".data.isPrefixOf rest then
      let r := cutAt '/' (rest.drop 2)
      let path := if r.2.2 then '/' :: r.2.1 else []
      match parseHost r.1 with
      | none => none
      | some host =>
        some { Scheme := String.mk scheme, Host := String.mk host, Path := String.mk path,
               RawQuery := String.mk rawQuery, ForceQuery := forceQuery }
    else
      some { Scheme := String.mk scheme, Path := String.mk rest,
             OmitHost := scheme ≠ [] && rest.head? = some '/',
             RawQuery := String.mk rawQuery, ForceQuery := forceQuery }

/-- Go's `url.Parse` restricted to the plain alphabet with at most one `#`;
`none` stands for a parse error or for a string outside the fragment. -/
def goParse (rawURL : String) : Option URL :=
  if rawURL.data.all plainChar && rawURL.data.count '#' ≤ 1 then
    let r := cutAt '#' rawURL.data
    match parseNoFragment r.1 with
    | none => none
    | some url => some { url with Fragment := String.mk r.2.1 }
  else none

/-- The pieces of a path between slashes (repeated `strings.Cut(remaining, "/")`). -/
def splitSlash : List Char → List (List Char)
  | [] => [[]]
  | c :: cs =>
    if c = '/' then [] :: splitSlash cs
    else
      match splitSlash cs with
      | h :: t => (c :: h) :: t
      | [] => [[c]]

/-- The text before the last `/` of `str`, or `none` when it has no `/`. -/
def beforeLastSlash (str : List Char) : Option (List Char) :=
  if '/' ∈ str then some ((str.reverse.dropWhile (fun c => c != '/')).drop 1).reverse else none

/-- The `for found` loop of Go's `resolvePath`: `dst` is the builder, `first` the flag. -/
def resolveLoop : List (List Char) → List Char → Bool → List Char
  | [], dst, _ => dst
  | elem :: more, dst, first =>
    if elem = ['.'] then
      if more = [] then resolveLoop more dst false ++ ['/'] else resolveLoop more dst false
    else if elem = ['.', '.'] then
      let (dst1, first1) :=
        match beforeLastSlash (dst.drop 1) with
        | none => (['/'], true)
        | some pre => ('/' :: pre, first)
      if more = [] then resolveLoop more dst1 first1 ++ ['/'] else resolveLoop more dst1 first1
    else
      resolveLoop more ((if first then dst else dst ++ ['/']) ++ elem) false

/-- Go's `resolvePath`. -/
def resolvePath (base ref : List Char) : List Char :=
  let full :=
    match ref with
    | [] => base
    | c :: _ =>
      if c ≠ '/' then (base.reverse.dropWhile (fun c => c != '/')).reverse ++ ref else ref
  if full = [] then []
  else
    let r := resolveLoop (splitSlash full) ['/'] true
    match r with
    | _ :: '/' :: _ => r.drop 1
    | _ => r

/-- Go's `(*URL).ResolveReference` (without userinfo). -/
def goResolveReference (u ref : URL) : URL :=
  let url := if ref.Scheme = "" then { ref with Scheme := u.Scheme } else ref
  if ref.Scheme ≠ "" || ref.Host ≠ "" then
    { url with Path := String.mk (resolvePath ref.Path.data []) }
  else if ref.Opaque ≠ "" then
    { url with Host := "", Path := "" }
  else
    let url :=
      if ref.Path = "" && !ref.ForceQuery && ref.RawQuery = "" then
        if ref.Fragment = "" then { url with RawQuery := u.RawQuery, Fragment := u.Fragment }
        else { url with RawQuery := u.RawQuery }
      else url
    if ref.Path = "" && u.Opaque ≠ "" then
      { url with Opaque := u.Opaque, Host := "", Path := "" }
    else
      { url with Host := u.Host, Path := String.mk (resolvePath u.Path.data ref.Path.data) }

/-- Go's `(*URL).String` (without userinfo, plain alphabet). -/
def goString (u : URL) : String :=
  let s1 := if u.Scheme ≠ "" then u.Scheme ++ ":" else ""
  let s2 :=
    if u.Opaque ≠ "" then s1 ++ u.Opaque
    else
      let s3 :=
        if u.Scheme ≠ "" || u.Host ≠ "" then
          if u.OmitHost && u.Host = "" then s1
          else (if u.Host ≠ "" || u.Path ≠ "" then s1 ++ "//" else s1) ++ u.Host
        else s1
      let s4 := if u.Path ≠ "" && u.Path.data.head? ≠ some '/' && u.Host ≠ "" then s3 ++ "/" else s3
      let s5 := if s4 = "" && ':' ∈ (cutAt '/' u.Path.data).1 then s4 ++ "./" else s4
      s5 ++ u.Path
  let s6 := if u.ForceQuery || u.RawQuery ≠ "" then s2 ++ "?" ++ u.RawQuery else s2
  if u.Fragment ≠ "" then s6 ++ "#" ++ u.Fragment else s6

/-- A fragment of Go's `net/url`: URLs over the plain alphabet, no userinfo,
no bracketed hosts, no percent-escapes. -/
def goURL : NetURL := ⟨goParse, goResolveReference, goString⟩


/-! ## `golang.org/x/net/html` tokens -/

/-- Go's `html.TokenType` without `ErrorToken`: the error token is the end of
the token list of a `Body`. -/
inductive TokenType
  | TextToken
  | StartTagToken
  | EndTagToken
  | SelfClosingTagToken
  | CommentToken
  | DoctypeToken
  deriving DecidableEq, Repr

/-- Go's `html.Attribute`. -/
structure Attribute where
  Key : String
  Val : String
  deriving DecidableEq, Repr

/-- Go's `html.Token` (its field `Type` is `Type_` here, `Type` being reserved). -/
structure Token where
  Type_ : TokenType
  Data : String
  Attr : List Attribute
  deriving DecidableEq, Repr

/-- What the tokenizer yields on a response body: the tokens returned by the
successive `z.Next()` calls, then an `ErrorToken` whose `z.Err()` is `io.EOF`
(`err = none`) or another error (`err = some e`). -/
structure Body where
  tokens : List Token
  err : Option String
  deriving DecidableEq, Repr

/-! ## The link extractor (lines 160-223) -/

/-- Function `makeAbsoluteURL`: parse both strings, resolve, print; `none` is the error return. -/
def makeAbsoluteURL (lib : NetURL) (baseURL relativeURL : String) : Option String :=
  match lib.Parse baseURL with
  | none => none
  | some base =>
    match lib.Parse relativeURL with
    | none => none
    | some relative => some (lib.render (lib.ResolveReference base relative))

/-- Function `processURL`: the absolute URL, or `""` when the value is empty or does not resolve. -/
def processURL (lib : NetURL) (foundURL baseURL : String) : String :=
  if foundURL != "" then
    match makeAbsoluteURL lib baseURL foundURL with
    | some absoluteURL => absoluteURL
    | none => ""
  else ""

/-- Function `isValidTag` (lines 196-198). -/
def isValidTag (tag : String) : Bool :=
  tag == "a" || tag == "link" || tag == "script" || tag == "img"

/-- The loop over `t.Attr` in `extractURLFromToken`, `urls` being the slice built so far. -/
def attrLoop (lib : NetURL) (baseURL : String) : List Attribute → List String → List String
  | [], urls => urls
  | attr :: more, urls =>
    if attr.Key == "href" || attr.Key == "src" then
      let url := processURL lib attr.Val baseURL
      if url != "" then attrLoop lib baseURL more (urls ++ [url])
      else attrLoop lib baseURL more urls
    else attrLoop lib baseURL more urls

/-- Function `extractURLFromToken` (lines 182-194). -/
def extractURLFromToken (lib : NetURL) (t : Token) (baseURL : String) : List String :=
  if isValidTag t.Data then attrLoop lib baseURL t.Attr [] else []

/-- The `for` loop of `extractURLs` over the tokens that precede the error token. -/
def tokenLoop (lib : NetURL) (baseURL : String) : List Token → List String → List String
  | [], urls => urls
  | t :: more, urls =>
    if t.Type_ = TokenType.StartTagToken then
      tokenLoop lib baseURL more (urls ++ extractURLFromToken lib t baseURL)
    else tokenLoop lib baseURL more urls

/-- Function `extractURLs`: all tokens are consumed, then the error token decides between
the collected URLs (`io.EOF`) and the error. -/
def extractURLs (lib : NetURL) (body : Body) (baseURL : String) : Except String (List String) :=
  let urls := tokenLoop lib baseURL body.tokens []
  match body.err with
  | none => Except.ok urls
  | some e => Except.error e

/-- What one attribute contributes, in the words of the specification: the
value of an `href` or `src` attribute, when it is non-empty, resolved against the
base, when resolution succeeds. -/
def attrSpec (lib : NetURL) (baseURL : String) (attr : Attribute) : Option String :=
  if (attr.Key = "href" ∨ attr.Key = "src") ∧ attr.Val ≠ "" then
    makeAbsoluteURL lib baseURL attr.Val
  else none

/-- The link extractor as the specification words it: for each start tag named
`a`, `link`, `script` or `img`, what each of its attributes contributes; in
document order, duplicates kept. -/
def extractSpec (lib : NetURL) (tokens : List Token) (baseURL : String) : List String :=
  tokens.flatMap fun t =>
    if t.Type_ = TokenType.StartTagToken ∧ t.Data ∈ ["a", "link", "script", "img"] then
      t.Attr.filterMap (attrSpec lib baseURL)
    else []

/-! ## `isSameHost` (lines 132-142) -/

/-- Function `isSameHost`: both strings parse and their `Host` fields are equal. -/
def isSameHost (lib : NetURL) (baseURL targetURL : String) : Bool :=
  match lib.Parse baseURL with
  | none => false
  | some base =>
    match lib.Parse targetURL with
    | none => false
    | some target => base.Host == target.Host

/-! ## The network -/

/-- Go's `http.Request` as far as `createRequest` builds it. -/
structure Request where
  method : String
  url : String
  header : List (String × String)
  deriving DecidableEq, Repr

/-- What lies outside the program: whether `http.NewRequest("GET", url, nil)`
fails, and what `client.Do` answers to a request.  The answer is a function of
the request: within one crawl the network serves the same page for the same
request. -/
structure World where
  newRequestErr : String → Option String
  roundTrip : Request → Except String Body

/-- Function `createRequest` (lines 144-158). -/
def createRequest (w : World) (baseURL cookie authorization : String) : Except String Request :=
  match w.newRequestErr baseURL with
  | some e => Except.error e
  | none =>
    let req : Request := ⟨"GET", baseURL, []⟩
    let req := if cookie != "" then { req with header := req.header ++ [("Cookie", cookie)] } else req
    let req :=
      if authorization != "" then { req with header := req.header ++ [("Authorization", authorization)] }
      else req
    Except.ok req

/-! ## The crawl orchestrator (lines 84-130) -/

/-- The state every branch of one top-level crawl shares: the keys of the
`sync.Map` `visitedURLs` (every value stored is `true`), and, as a ghost field,
the URLs of the requests handed to `client.Do` so far, oldest first. -/
structure Shared where
  visited : List String
  fetched : List String
  deriving DecidableEq, Repr

/-- The call `visitedURLs.LoadOrStore(u, true)`: the map afterwards and the `loaded` flag. -/
def loadOrStore (visited : List String) (u : String) : List String × Bool :=
  if u ∈ visited then (visited, true) else (u :: visited, false)

/-- Lines 85-100 of `crawlURL`: build the request, send it, extract the URLs. -/
def fetchAndExtract (lib : NetURL) (w : World) (baseURL cookie authorization : String)
    (sh : Shared) : Except String (List String) × Shared :=
  match createRequest w baseURL cookie authorization with
  | Except.error e => (Except.error e, sh)
  | Except.ok req =>
    let sh1 : Shared := { sh with fetched := sh.fetched ++ [req.url] }
    match w.roundTrip req with
    | Except.error e => (Except.error e, sh1)
    | Except.ok body => (extractURLs lib body baseURL, sh1)

/-- Lines 102-107 of `crawlURL`: the `LoadOrStore` loop; returns `uniqueURLs`
and the map afterwards. -/
def filterLoop : List String → List String → List String → List String × List String
  | [], visited, uniqueURLs => (uniqueURLs, visited)
  | u :: rest, visited, uniqueURLs =>
    let r := loadOrStore visited u
    if !r.2 then filterLoop rest r.1 (uniqueURLs ++ [u]) else filterLoop rest r.1 uniqueURLs

/-- A goroutine started at line 115 with argument `url`, i.e. one call
`crawlURL(url, cookie, authorization, false, visitedURLs)` followed by the locked
append: not yet started, inside its `LoadOrStore` loop (URLs still to test, its
own `uniqueURLs`), or returned. -/
inductive Branch
  | spawned (url : String)
  | filtering (url : String) (urls : List String) (uniqueURLs : List String)
  | finished (url : String)
  deriving DecidableEq, Repr

/-- One atomic action of a goroutine on the shared state and on the parent's
slice `uniqueURLs`: fetch and extract (a failure ends the goroutine with no
effect on the slice), one `LoadOrStore`, or the append under the mutex. -/
def stepBranch (lib : NetURL) (w : World) (cookie authorization : String) :
    Branch → Shared → List String → Branch × Shared × List String
  | Branch.spawned url, sh, parent =>
    match fetchAndExtract lib w url cookie authorization sh with
    | (Except.error _, sh1) => (Branch.finished url, sh1, parent)
    | (Except.ok urls, sh1) => (Branch.filtering url urls [], sh1, parent)
  | Branch.filtering url [] uniqueURLs, sh, parent =>
    (Branch.finished url, sh, parent ++ uniqueURLs)
  | Branch.filtering url (u :: rest) uniqueURLs, sh, parent =>
    let r := loadOrStore sh.visited u
    (Branch.filtering url rest (if !r.2 then uniqueURLs ++ [u] else uniqueURLs),
      { sh with visited := r.1 }, parent)
  | Branch.finished url, sh, parent => (Branch.finished url, sh, parent)

/-- The parent of a recursive crawl between line 112 and `wg.Wait()`. -/
structure Pool where
  shared : Shared
  uniqueURLs : List String
  branches : List Branch
  deriving DecidableEq, Repr

/-- Let goroutine number `i` take one step (nothing happens when there is none). -/
def stepAt (lib : NetURL) (w : World) (cookie authorization : String) :
    Nat → List Branch → Shared → List String → List Branch × Shared × List String
  | _, [], sh, parent => ([], sh, parent)
  | 0, b :: bs, sh, parent =>
    let r := stepBranch lib w cookie authorization b sh parent
    (r.1 :: bs, r.2.1, r.2.2)
  | i + 1, b :: bs, sh, parent =>
    let r := stepAt lib w cookie authorization i bs sh parent
    (b :: r.1, r.2.1, r.2.2)

/-- Run the goroutines in the order the schedule names them. -/
def runSched (lib : NetURL) (w : World) (cookie authorization : String) :
    List Nat → Pool → Pool
  | [], p => p
  | i :: sched, p =>
    let r := stepAt lib w cookie authorization i p.branches p.shared p.uniqueURLs
    runSched lib w cookie authorization sched ⟨r.2.1, r.2.2, r.1⟩

/-- Run one goroutine from where it stands until it returns. -/
def drain (lib : NetURL) (w : World) (cookie authorization : String) :
    Branch → Shared → List String → Shared × List String
  | Branch.spawned url, sh, parent =>
    match fetchAndExtract lib w url cookie authorization sh with
    | (Except.error _, sh1) => (sh1, parent)
    | (Except.ok urls, sh1) =>
      let r := filterLoop urls sh1.visited []
      ({ sh1 with visited := r.2 }, parent ++ r.1)
  | Branch.filtering _ urls uniqueURLs, sh, parent =>
    let r := filterLoop urls sh.visited uniqueURLs
    ({ sh with visited := r.2 }, parent ++ r.1)
  | Branch.finished _, sh, parent => (sh, parent)

/-- The call `wg.Wait()`: every goroutine that has not returned yet runs to its end, one
after the other. -/
def drainAll (lib : NetURL) (w : World) (cookie authorization : String) :
    List Branch → Shared → List String → Shared × List String
  | [], sh, parent => (sh, parent)
  | b :: bs, sh, parent =>
    let r := drain lib w cookie authorization b sh parent
    drainAll lib w cookie authorization bs r.1 r.2

/-- Function `crawlURL` (lines 84-130).  The schedule fixes the interleaving of the goroutines of a
recursive crawl: its entries are executed one atomic action each, then the
parent waits for whatever is still running.  Every interleaving of the atomic
actions is the run of some schedule.  The second component is the shared state
when `crawlURL` returns. -/
def crawlURL (lib : NetURL) (w : World) (baseURL cookie authorization : String)
    (recursive : Bool) (sched : List Nat) (sh : Shared) : Except String (List String) × Shared :=
  match fetchAndExtract lib w baseURL cookie authorization sh with
  | (Except.error e, sh1) => (Except.error e, sh1)
  | (Except.ok urls, sh1) =>
    let r := filterLoop urls sh1.visited []
    let sh2 : Shared := { sh1 with visited := r.2 }
    if recursive then
      let spawnedURLs := r.1.filter (isSameHost lib baseURL)
      let p := runSched lib w cookie authorization sched ⟨sh2, r.1, spawnedURLs.map Branch.spawned⟩
      let q := drainAll lib w cookie authorization p.branches p.shared p.uniqueURLs
      (Except.ok q.2, q.1)
    else (Except.ok r.1, sh2)

/-! ## `main` from the crawl on (lines 302-329) -/

/-- The type `Options` (lines 23-29). -/
structure Options where
  URL : String
  Cookie : String
  Authorization : String
  Output : String
  Recursive : Bool
  deriving DecidableEq, Repr

/-- What a run shows to its user. -/
inductive Event
  | errorLog (msg : String)
  | line (colour : Colour) (url : String)
  | fileWritten (path : String) (content : String)
  | summary (total : Nat)
  deriving DecidableEq, Repr

/-- The operating system and the JSON encoder: the error of `os.WriteFile` for a
path and a content (`none` when the file is written), and `json.MarshalIndent`. -/
structure Sys where
  writeFileErr : String → String → Option String
  marshalIndent : List String → Except String String

/-- Go's `strings.HasSuffix`. -/
def hasSuffix (s p : String) : Bool := p.data.reverse.isPrefixOf s.data.reverse

/-- The call `os.WriteFile` as seen by the user: the error, or the file. -/
def writeFile (sys : Sys) (path content : String) : Option String × List Event :=
  match sys.writeFileErr path content with
  | some e => (some e, [])
  | none => (none, [Event.fileWritten path content])

/-- Function `writeJSONOutput` (lines 255-263). -/
def writeJSONOutput (sys : Sys) (urls : List String) (outputPath : String) :
    Option String × List Event :=
  match sys.marshalIndent urls with
  | Except.error e => (some ("error creating JSON: " ++ e), [])
  | Except.ok jsonData => writeFile sys outputPath jsonData

/-- Function `writeTextOutput` (lines 265-283). -/
def writeTextOutput (sys : Sys) (urls : List String) (outputPath : String) :
    Option String × List Event :=
  if outputPath != "" then
    writeFile sys outputPath (String.join (urls.map fun u => u ++ "\n"))
  else
    (none, urls.map fun u =>
      if hasFileExtension u then Event.line Colour.green u else Event.line Colour.blue u)

/-- Function `writeOutput` (lines 248-253). -/
def writeOutput (sys : Sys) (urls : List String) (options : Options) : Option String × List Event :=
  if options.Output != "" && hasSuffix options.Output ".json" then
    writeJSONOutput sys urls options.Output
  else writeTextOutput sys urls options.Output

/-- Function `main` from line 302 on, i.e. for a run that reaches the crawl: the events
shown to the user, in order. -/
def main (lib : NetURL) (w : World) (sys : Sys) (options : Options) (sched : List Nat) :
    List Event :=
  let visitedURLs : Shared := ⟨[options.URL], []⟩
  match (crawlURL lib w options.URL options.Cookie options.Authorization options.Recursive
      sched visitedURLs).1 with
  | Except.error e => [Event.errorLog ("Error crawling: " ++ e)]
  | Except.ok urls =>
    let uniqueURLs := mainDedup urls
    let r := writeOutput sys uniqueURLs options
    let logged :=
      match r.1 with
      | some e => [Event.errorLog ("Error writing output: " ++ e)]
      | none => []
    r.2 ++ logged ++ [Event.summary uniqueURLs.length]

/-! ## The step relation of the goroutine pool and the quantities it preserves -/

/-- The argument `url` of the goroutine. -/
def Branch.url : Branch → String
  | Branch.spawned url => url
  | Branch.filtering url _ _ => url
  | Branch.finished url => url

/-- The `uniqueURLs` slice a goroutine holds and has not appended yet. -/
def accOf : Branch → List String
  | Branch.filtering _ _ uniqueURLs => uniqueURLs
  | _ => []

/-- The URL a goroutine has still to fetch. -/
def startOf : Branch → List String
  | Branch.spawned url => [url]
  | _ => []

/-- Every URL for which some `LoadOrStore` of this crawl answered "not loaded":
the parent's slice together with the slices the goroutines still hold. -/
def pendM (p : Pool) : Multiset String :=
  (p.uniqueURLs : Multiset String) + (p.branches.map fun b => (accOf b : Multiset String)).sum

/-- The URLs fetched so far together with those still to be fetched. -/
def fetchM (p : Pool) : Multiset String :=
  (p.shared.fetched : Multiset String) + (p.branches.map fun b => (startOf b : Multiset String)).sum

/-- What fetching `url` and extracting its page yields; it does not depend on the
shared state. -/
def crawlPage (lib : NetURL) (w : World) (cookie authorization url : String) :
    Except String (List String) :=
  (fetchAndExtract lib w url cookie authorization ⟨[], []⟩).1

/-- One goroutine of the pool takes one atomic action. -/
inductive Step (lib : NetURL) (w : World) (cookie authorization : String) : Pool → Pool → Prop
  | mk (pre : List Branch) (b : Branch) (post : List Branch) (sh : Shared) (parent : List String) :
    Step lib w cookie authorization ⟨sh, parent, pre ++ b :: post⟩
      ⟨(stepBranch lib w cookie authorization b sh parent).2.1,
        (stepBranch lib w cookie authorization b sh parent).2.2,
        pre ++ (stepBranch lib w cookie authorization b sh parent).1 :: post⟩

/-- Any number of atomic actions, in any order. -/
abbrev Steps (lib : NetURL) (w : World) (cookie authorization : String) : Pool → Pool → Prop :=
  Relation.ReflTransGen (Step lib w cookie authorization)

/-- What the visited map guarantees about one goroutine: inside the loop, the
page of its URL was extracted, every URL of the page is still to be tested or
already in the map, and what it holds comes from the page; once it has returned,
every URL of its page (if the page was extracted) is in the map. -/
def TrackB (lib : NetURL) (w : World) (cookie authorization : String) (visited : List String) :
    Branch → Prop
  | Branch.spawned _ => True
  | Branch.filtering url todo acc =>
    ∃ urls, crawlPage lib w cookie authorization url = Except.ok urls
      ∧ (∀ u ∈ urls, u ∈ todo ∨ u ∈ visited) ∧ (∀ u ∈ todo, u ∈ urls) ∧ (∀ u ∈ acc, u ∈ urls)
  | Branch.finished url =>
    ∀ urls, crawlPage lib w cookie authorization url = Except.ok urls → ∀ u ∈ urls, u ∈ visited

/-- The invariant of the visited map, relative to the map `v0` the crawl was
called with: the pending URLs are pairwise distinct, none of them is in `v0`, and
the map holds exactly `v0` and the pending URLs. -/
def InvA (v0 : List String) (p : Pool) : Prop :=
  (pendM p).Nodup ∧ (∀ u, u ∈ p.shared.visited ↔ (u ∈ v0 ∨ u ∈ pendM p))
    ∧ ∀ u ∈ pendM p, u ∉ v0

/-- The invariant of provenance, relative to the parent's own list `uniq` and
the spawned URLs `subs`: every goroutine is tracked by the map, its URL is one of
`subs`, and every URL of the parent's slice comes from `uniq` or from the
extracted page of a spawned URL. -/
def InvC (lib : NetURL) (w : World) (cookie authorization : String) (uniq subs : List String)
    (p : Pool) : Prop :=
  (∀ b ∈ p.branches, TrackB lib w cookie authorization p.shared.visited b)
    ∧ (∀ b ∈ p.branches, b.url ∈ subs)
    ∧ ∀ u ∈ p.uniqueURLs, u ∈ uniq ∨ ∃ sub ∈ subs, ∃ urls,
        crawlPage lib w cookie authorization sub = Except.ok urls ∧ u ∈ urls

/-! ## Sample data for closed examples -/

deriving instance DecidableEq for Except

/-- A start tag with one attribute. -/
def startTag (name key val : String) : Token :=
  ⟨TokenType.StartTagToken, name, [⟨key, val⟩]⟩

/-- The fixture of the extraction scenario: `<a href="/page1">`, `<img src="img.png">`,
`<script src="https://cdn.example/x.js">`, `<div data-x="ignored">`. -/
def fixture : Body :=
  ⟨[startTag "a" "href" "/page1", startTag "img" "src" "img.png",
    startTag "script" "src" "https://cdn.example/x.js", startTag "div" "data-x" "ignored"], none⟩

/-- The page at `http://a.com/` of a small site: it links to itself, to `/x`
(twice), to another host and to `/down`. -/
def demoHome : Body :=
  ⟨[startTag "a" "href" "/", startTag "a" "href" "/x",
    startTag "a" "href" "http://b.org/y", startTag "img" "src" "/x",
    startTag "link" "href" "/down"], none⟩

/-- The network around the small site: the page at `http://a.com/x` links to `/z`
and to the other host; every request but those two meets a network error. -/
def demoWorld : World where
  newRequestErr := fun _ => none
  roundTrip := fun req =>
    if req.url = "http://a.com/" then Except.ok demoHome
    else if req.url = "http://a.com/x" then
      Except.ok ⟨[startTag "a" "href" "/z", startTag "a" "href" "http://b.org/y"], none⟩
    else Except.error "dial tcp: connection refused"

/-- A system on which every `os.WriteFile` fails. -/
def readOnlySys : Sys where
  writeFileErr := fun _ _ => some "open out.txt: read-only file system"
  marshalIndent := fun urls => Except.ok (String.join urls)

/-- Options of a non-recursive run on the small site that writes to `out.txt`. -/
def demoOptions : Options := ⟨"http://a.com/", "", "", "out.txt", false⟩

/-! ## A functional reading of the two filter loops -/

/-- Functional reading of both filter loops of the program: walk the list,
keep an element when it is not yet in the set `S`, and add it to `S`. -/
def keepNew : List String → List String → List String
  | _, [] => []
  | S, u :: rest => if u ∈ S then keepNew S rest else u :: keepNew (u :: S) rest

/-! ## Lemmas: keeping the first occurrences -/

lemma mem_keepNew (S l : List String) (x : String) :
    x ∈ keepNew S l ↔ x ∈ l ∧ x ∉ S := by
  induction l generalizing S with
  | nil => simp [keepNew]
  | cons u rest ih =>
    by_cases hu : u ∈ S
    · simp only [keepNew, hu, if_true, ih, List.mem_cons]
      constructor
      · rintro ⟨h1, h2⟩
        exact ⟨Or.inr h1, h2⟩
      · rintro ⟨h1 | h1, h2⟩
        · exact absurd (h1 ▸ hu) h2
        · exact ⟨h1, h2⟩
    · simp only [keepNew, hu, if_false, List.mem_cons, ih]
      constructor
      · rintro (h | ⟨h1, h2⟩)
        · exact ⟨Or.inl h, h ▸ hu⟩
        · exact ⟨Or.inr h1, fun h => h2 (Or.inr h)⟩
      · rintro ⟨h1 | h1, h2⟩
        · exact Or.inl h1
        · by_cases hx : x = u
          · exact Or.inl hx
          · right
            refine ⟨h1, ?_⟩
            rintro (h | h)
            · exact hx h
            · exact h2 h

lemma nodup_keepNew (S l : List String) : (keepNew S l).Nodup := by
  induction l generalizing S with
  | nil => simp [keepNew]
  | cons u rest ih =>
    by_cases hu : u ∈ S
    · simp only [keepNew, hu, if_true]
      exact ih S
    · simp only [keepNew, hu, if_false, List.nodup_cons]
      refine ⟨?_, ih _⟩
      rw [mem_keepNew]
      simp

lemma indexOf_keepNew (S l : List String) (x y : String)
    (hx : x ∈ keepNew S l) (hy : y ∈ keepNew S l) :
    (List.indexOf x (keepNew S l) < List.indexOf y (keepNew S l)
      ↔ List.indexOf x l < List.indexOf y l) := by
  induction l generalizing S with
  | nil => simp [keepNew] at hx
  | cons u rest ih =>
    by_cases hu : u ∈ S
    · simp only [keepNew, hu, if_true] at hx hy ⊢
      have hxu : x ≠ u := fun h => ((mem_keepNew _ _ _).1 hx).2 (h ▸ hu)
      have hyu : y ≠ u := fun h => ((mem_keepNew _ _ _).1 hy).2 (h ▸ hu)
      rw [List.indexOf_cons_ne _ (Ne.symm hxu), List.indexOf_cons_ne _ (Ne.symm hyu)]
      rw [ih S hx hy]
      omega
    · simp only [keepNew, hu, if_false] at hx hy ⊢
      by_cases hxu : x = u
      · subst hxu
        by_cases hyu : y = x
        · subst hyu
          simp
        · rw [List.indexOf_cons_ne _ (Ne.symm hyu), List.indexOf_cons_ne _ (Ne.symm hyu)]
          simp
      · have hx' : x ∈ keepNew (u :: S) rest := by
          rcases List.mem_cons.1 hx with h | h
          · exact absurd h hxu
          · exact h
        by_cases hyu : y = u
        · subst hyu
          simp
        · have hy' : y ∈ keepNew (u :: S) rest := by
            rcases List.mem_cons.1 hy with h | h
            · exact absurd h hyu
            · exact h
          rw [List.indexOf_cons_ne _ (Ne.symm hxu), List.indexOf_cons_ne _ (Ne.symm hyu),
            List.indexOf_cons_ne _ (Ne.symm hxu), List.indexOf_cons_ne _ (Ne.symm hyu)]
          rw [Nat.succ_lt_succ_iff, Nat.succ_lt_succ_iff]
          exact ih _ hx' hy'

lemma dedupLoop_eq (rest : List String) (seen : SeenMap) (S out : List String)
    (h : ∀ k, seen.get k = true ↔ k ∈ S) :
    dedupLoop rest seen out = out ++ keepNew S rest := by
  induction rest generalizing seen S out with
  | nil => simp [dedupLoop, keepNew]
  | cons u rest ih =>
    by_cases hu : u ∈ S
    · have hg : seen.get u = true := (h u).2 hu
      simp only [dedupLoop, hg, keepNew, hu, if_true, Bool.not_true, Bool.false_eq_true, if_false]
      exact ih seen S out h
    · have hg : seen.get u = false := by
        cases hb : seen.get u with
        | false => rfl
        | true => exact absurd ((h u).1 hb) hu
      simp only [dedupLoop, hg, keepNew, hu, if_false, Bool.not_false, if_true]
      rw [ih (seen.set u true) (u :: S) (out ++ [u])]
      · simp
      · intro k
        by_cases hk : k = u
        · subst hk
          simp [SeenMap.get, SeenMap.set, List.lookup]
        · have hk' : (k == u) = false := by simpa using hk
          simp only [SeenMap.get, SeenMap.set, List.lookup, hk', List.mem_cons, hk, false_or]
          exact h k

lemma mainDedup_eq (urls : List String) : mainDedup urls = keepNew [] urls := by
  unfold mainDedup
  rw [dedupLoop_eq urls [] [] []]
  · simp
  · intro k
    simp [SeenMap.get, List.lookup]

/-! ## Lemmas: `path.Ext` -/

lemma pathExtAux_split (t rest acc : List Char) (h1 : '.' ∉ t) (h2 : '/' ∉ t) :
    pathExtAux (t ++ '.' :: rest) acc = '.' :: (t.reverse ++ acc) := by
  induction t generalizing acc with
  | nil => simp [pathExtAux]
  | cons c t ih =>
    have hc1 : c ≠ '.' := fun h => h1 (by simp [h])
    have hc2 : c ≠ '/' := fun h => h2 (by simp [h])
    have h1' : '.' ∉ t := fun h => h1 (List.mem_cons_of_mem _ h)
    have h2' : '/' ∉ t := fun h => h2 (List.mem_cons_of_mem _ h)
    have e : pathExtAux (c :: (t ++ '.' :: rest)) acc = pathExtAux (t ++ '.' :: rest) (c :: acc) := by
      simp only [pathExtAux, hc1, hc2, if_false]
    rw [List.cons_append, e, ih _ h1' h2']
    simp

lemma pathExtAux_ne_nil (rev acc : List Char) (h : pathExtAux rev acc ≠ []) :
    ∃ t rest, rev = t ++ '.' :: rest ∧ '.' ∉ t ∧ '/' ∉ t := by
  induction rev generalizing acc with
  | nil => simp [pathExtAux] at h
  | cons c rev ih =>
    by_cases hc2 : c = '/'
    · simp [pathExtAux, hc2] at h
    · by_cases hc1 : c = '.'
      · exact ⟨[], rev, by simp [hc1], by simp, by simp⟩
      · simp only [pathExtAux, hc1, hc2, if_false] at h
        obtain ⟨t, rest, e, h1, h2⟩ := ih _ h
        refine ⟨c :: t, rest, by simp [e], ?_, ?_⟩
        · simp only [List.mem_cons, not_or]
          exact ⟨fun h => hc1 h.symm, h1⟩
        · simp only [List.mem_cons, not_or]
          exact ⟨fun h => hc2 h.symm, h2⟩

/-! ## Lemmas: the filter loop -/

lemma filterLoop_eq (urls visited acc : List String) :
    filterLoop urls visited acc
      = (acc ++ keepNew visited urls, (keepNew visited urls).reverse ++ visited) := by
  induction urls generalizing visited acc with
  | nil => simp [filterLoop, keepNew]
  | cons u rest ih =>
    by_cases hu : u ∈ visited
    · simp [filterLoop, loadOrStore, keepNew, hu, ih]
    · simp [filterLoop, loadOrStore, keepNew, hu, ih]

lemma keepNew_eq_self (S l : List String) (hn : l.Nodup) (hd : ∀ u ∈ l, u ∉ S) :
    keepNew S l = l := by
  induction l generalizing S with
  | nil => simp [keepNew]
  | cons u rest ih =>
    have hu : u ∉ S := hd u (by simp)
    have hn' := List.nodup_cons.1 hn
    simp only [keepNew, hu, if_false]
    rw [ih (u :: S) hn'.2]
    intro x hx
    simp only [List.mem_cons, not_or]
    exact ⟨fun h => hn'.1 (h ▸ hx), hd x (List.mem_cons_of_mem _ hx)⟩

/-! ## Lemmas: the link extractor -/

lemma attrLoop_eq (lib : NetURL) (baseURL : String)
    (hne : ∀ v r, makeAbsoluteURL lib baseURL v = some r → r ≠ "")
    (attrs : List Attribute) (urls : List String) :
    attrLoop lib baseURL attrs urls = urls ++ attrs.filterMap (attrSpec lib baseURL) := by
  induction attrs generalizing urls with
  | nil => simp [attrLoop]
  | cons a more ih =>
    by_cases hk : a.Key = "href" ∨ a.Key = "src"
    · have hk' : (a.Key == "href" || a.Key == "src") = true := by simpa using hk
      by_cases hv : a.Val = ""
      · simp [attrLoop, hk', processURL, hv, ih, attrSpec, List.filterMap_cons]
      · cases hm : makeAbsoluteURL lib baseURL a.Val with
        | none => simp [attrLoop, hk', processURL, hv, ih, attrSpec, List.filterMap_cons, hm, hk]
        | some r =>
          have hr : r ≠ "" := hne _ _ hm
          simp [attrLoop, hk', processURL, hv, ih, attrSpec, List.filterMap_cons, hm, hk, hr]
    · have hk' : (a.Key == "href" || a.Key == "src") = false := by simpa using hk
      simp [attrLoop, hk', ih, attrSpec, List.filterMap_cons, hk]

lemma tokenLoop_eq (lib : NetURL) (baseURL : String)
    (hne : ∀ v r, makeAbsoluteURL lib baseURL v = some r → r ≠ "")
    (tokens : List Token) (urls : List String) :
    tokenLoop lib baseURL tokens urls = urls ++ extractSpec lib tokens baseURL := by
  induction tokens generalizing urls with
  | nil => simp [tokenLoop, extractSpec]
  | cons t more ih =>
    have hspec : extractSpec lib (t :: more) baseURL
        = (if t.Type_ = TokenType.StartTagToken ∧ t.Data ∈ ["a", "link", "script", "img"] then
            t.Attr.filterMap (attrSpec lib baseURL) else []) ++ extractSpec lib more baseURL := by
      simp only [extractSpec, List.flatMap_cons]
    rw [hspec]
    by_cases ht : t.Type_ = TokenType.StartTagToken
    · by_cases hd : t.Data ∈ ["a", "link", "script", "img"]
      · have hv : isValidTag t.Data = true := by
          simp only [List.mem_cons, List.mem_singleton, List.not_mem_nil, or_false] at hd
          simpa [isValidTag, or_assoc] using hd
        simp [tokenLoop, ht, hd, extractURLFromToken, hv, attrLoop_eq lib baseURL hne, ih]
      · have hv : isValidTag t.Data = false := by
          simp only [List.mem_cons, List.mem_singleton, List.not_mem_nil, or_false] at hd
          simpa [isValidTag, and_assoc] using hd
        simp [tokenLoop, ht, hd, extractURLFromToken, hv, ih]
    · simp [tokenLoop, ht, ih]

/-! ## Lemmas: a URL with a scheme never prints as the empty string -/

lemma goResolveReference_scheme (u ref : URL) (hu : u.Scheme ≠ "") :
    (goResolveReference u ref).Scheme ≠ "" := by
  unfold goResolveReference
  by_cases h : ref.Scheme = ""
  · simp only [h, if_true]
    split_ifs <;> simpa using hu
  · simp only [h, if_false]
    split_ifs <;> simpa using h

lemma one_le_length_append (s x : String) (h : 1 ≤ s.length) : 1 ≤ (s ++ x).length := by
  rw [String.length_append]; omega

lemma one_le_length_ite (c : Prop) [Decidable c] (a b : String) (ha : 1 ≤ a.length)
    (hb : 1 ≤ b.length) : 1 ≤ (if c then a else b).length := by
  split_ifs
  · exact ha
  · exact hb

set_option maxRecDepth 8000 in
lemma goString_ne_empty (u : URL) (hu : u.Scheme ≠ "") : goString u ≠ "" := by
  have h1 : 1 ≤ (u.Scheme ++ ":").length := by
    rw [String.length_append]
    exact Nat.le_add_left 1 _
  have key : 1 ≤ (goString u).length := by
    unfold goString
    dsimp only
    rw [if_pos hu]
    repeat (first
      | with_reducible exact h1
      | with_reducible apply one_le_length_ite
      | with_reducible apply one_le_length_append)
  intro h
  rw [h] at key
  exact absurd key (Nat.not_succ_le_zero 0)

/-- Against a base that parses with a scheme (as every base that can be fetched
does), resolution never yields the empty string. -/
lemma goURL_resolve_ne_empty (baseURL : String) (base : URL)
    (hb : goURL.Parse baseURL = some base) (hs : base.Scheme ≠ "") :
    ∀ v r, makeAbsoluteURL goURL baseURL v = some r → r ≠ "" := by
  intro v r h
  unfold makeAbsoluteURL at h
  rw [hb] at h
  cases hv : goURL.Parse v with
  | none => simp [hv] at h
  | some rel =>
    simp only [hv, Option.some.injEq] at h
    rw [← h]
    exact goString_ne_empty _ (goResolveReference_scheme base rel hs)

/-! ## Lemmas: one fetch -/

lemma createRequest_url (w : World) (baseURL cookie authorization : String) (req : Request)
    (h : createRequest w baseURL cookie authorization = Except.ok req) : req.url = baseURL := by
  unfold createRequest at h
  cases hn : w.newRequestErr baseURL with
  | some e => simp [hn] at h
  | none =>
    simp only [hn] at h
    injection h with h
    subst h
    by_cases hc : cookie = "" <;> by_cases ha : authorization = "" <;> simp [hc, ha]

lemma fetchAndExtract_visited (lib : NetURL) (w : World) (url cookie authorization : String)
    (sh : Shared) : (fetchAndExtract lib w url cookie authorization sh).2.visited = sh.visited := by
  cases hc : createRequest w url cookie authorization with
  | error e => simp [fetchAndExtract, hc]
  | ok req =>
    cases hr : w.roundTrip req with
    | error e => simp [fetchAndExtract, hc, hr]
    | ok body => simp [fetchAndExtract, hc, hr]

lemma fetchAndExtract_fetched (lib : NetURL) (w : World) (url cookie authorization : String)
    (sh : Shared) :
    (fetchAndExtract lib w url cookie authorization sh).2.fetched = sh.fetched
      ∨ (fetchAndExtract lib w url cookie authorization sh).2.fetched = sh.fetched ++ [url] := by
  cases hc : createRequest w url cookie authorization with
  | error e => simp [fetchAndExtract, hc]
  | ok req =>
    have hu := createRequest_url w url cookie authorization req hc
    cases hr : w.roundTrip req with
    | error e => simp [fetchAndExtract, hc, hr, hu]
    | ok body => simp [fetchAndExtract, hc, hr, hu]

lemma fetchAndExtract_fst (lib : NetURL) (w : World) (url cookie authorization : String)
    (sh sh' : Shared) :
    (fetchAndExtract lib w url cookie authorization sh).1
      = (fetchAndExtract lib w url cookie authorization sh').1 := by
  cases hc : createRequest w url cookie authorization with
  | error e => simp [fetchAndExtract, hc]
  | ok req =>
    cases hr : w.roundTrip req with
    | error e => simp [fetchAndExtract, hc, hr]
    | ok body => simp [fetchAndExtract, hc, hr]

/-! ## Lemmas: every run of the pool is a sequence of atomic steps -/

lemma stepAt_steps (lib : NetURL) (w : World) (cookie authorization : String) (i : Nat)
    (bs pre : List Branch) (sh : Shared) (parent : List String) :
    Steps lib w cookie authorization ⟨sh, parent, pre ++ bs⟩
      ⟨(stepAt lib w cookie authorization i bs sh parent).2.1,
        (stepAt lib w cookie authorization i bs sh parent).2.2,
        pre ++ (stepAt lib w cookie authorization i bs sh parent).1⟩ := by
  induction bs generalizing i pre with
  | nil => cases i <;> exact Relation.ReflTransGen.refl
  | cons b bs ih =>
    cases i with
    | zero => exact Relation.ReflTransGen.single (Step.mk pre b bs sh parent)
    | succ i =>
      have h := ih i (pre ++ [b])
      simpa [stepAt] using h

lemma runSched_steps (lib : NetURL) (w : World) (cookie authorization : String)
    (sched : List Nat) (p : Pool) :
    Steps lib w cookie authorization p (runSched lib w cookie authorization sched p) := by
  induction sched generalizing p with
  | nil => exact Relation.ReflTransGen.refl
  | cons i sched ih =>
    have h := stepAt_steps lib w cookie authorization i p.branches [] p.shared p.uniqueURLs
    simp only [List.nil_append] at h
    exact Relation.ReflTransGen.trans h (ih _)

lemma drain_filtering_steps (lib : NetURL) (w : World) (cookie authorization : String)
    (url : String) (urls acc : List String) (pre post : List Branch) (sh : Shared)
    (parent : List String) :
    Steps lib w cookie authorization ⟨sh, parent, pre ++ Branch.filtering url urls acc :: post⟩
      ⟨(drain lib w cookie authorization (Branch.filtering url urls acc) sh parent).1,
        (drain lib w cookie authorization (Branch.filtering url urls acc) sh parent).2,
        pre ++ Branch.finished url :: post⟩ := by
  induction urls generalizing sh acc with
  | nil =>
    have h : Step lib w cookie authorization _ _ := Step.mk pre (Branch.filtering url [] acc) post sh parent
    exact Relation.ReflTransGen.single h
  | cons u rest ih =>
    have h : Step lib w cookie authorization _ _ := Step.mk pre (Branch.filtering url (u :: rest) acc) post sh parent
    refine Relation.ReflTransGen.head h ?_
    have h2 := ih (if !(loadOrStore sh.visited u).2 then acc ++ [u] else acc)
      { sh with visited := (loadOrStore sh.visited u).1 }
    have e : drain lib w cookie authorization (Branch.filtering url (u :: rest) acc) sh parent
        = drain lib w cookie authorization
            (Branch.filtering url rest (if !(loadOrStore sh.visited u).2 then acc ++ [u] else acc))
            { sh with visited := (loadOrStore sh.visited u).1 } parent := by
      by_cases hu : u ∈ sh.visited <;> simp [drain, filterLoop, loadOrStore, hu]
    rw [e]
    exact h2

lemma drain_steps (lib : NetURL) (w : World) (cookie authorization : String)
    (b : Branch) (pre post : List Branch) (sh : Shared) (parent : List String) :
    Steps lib w cookie authorization ⟨sh, parent, pre ++ b :: post⟩
      ⟨(drain lib w cookie authorization b sh parent).1,
        (drain lib w cookie authorization b sh parent).2,
        pre ++ Branch.finished b.url :: post⟩ := by
  cases b with
  | finished url => exact Relation.ReflTransGen.refl
  | filtering url urls acc => exact drain_filtering_steps lib w cookie authorization _ _ _ _ _ _ _
  | spawned url =>
    have h : Step lib w cookie authorization _ _ := Step.mk pre (Branch.spawned url) post sh parent
    refine Relation.ReflTransGen.head h ?_
    cases hf : fetchAndExtract lib w url cookie authorization sh with
    | mk r sh1 =>
      cases r with
      | error e =>
        simp only [stepBranch, drain, hf, Branch.url]
        exact Relation.ReflTransGen.refl
      | ok urls =>
        have h2 := drain_filtering_steps lib w cookie authorization url urls [] pre post sh1 parent
        simpa [stepBranch, drain, hf, Branch.url] using h2

/-- A goroutine that runs alone from its start to its end does what the call
`crawlURL(url, cookie, authorization, false, visitedURLs)` does, and appends the
returned list when the call succeeds. -/
lemma drain_spawned_eq_crawlURL (lib : NetURL) (w : World) (cookie authorization url : String)
    (sched : List Nat) (sh : Shared) (parent : List String) :
    drain lib w cookie authorization (Branch.spawned url) sh parent
      = match crawlURL lib w url cookie authorization false sched sh with
        | (Except.ok recursiveURLs, sh') => (sh', parent ++ recursiveURLs)
        | (Except.error _, sh') => (sh', parent) := by
  cases hf : fetchAndExtract lib w url cookie authorization sh with
  | mk r sh1 => cases r <;> simp [drain, crawlURL, hf]

lemma drainAll_steps (lib : NetURL) (w : World) (cookie authorization : String)
    (bs pre : List Branch) (sh : Shared) (parent : List String) :
    Steps lib w cookie authorization ⟨sh, parent, pre ++ bs⟩
      ⟨(drainAll lib w cookie authorization bs sh parent).1,
        (drainAll lib w cookie authorization bs sh parent).2,
        pre ++ bs.map fun b => Branch.finished b.url⟩ := by
  induction bs generalizing pre sh parent with
  | nil => exact Relation.ReflTransGen.refl
  | cons b bs ih =>
    have h1 := drain_steps lib w cookie authorization b pre bs sh parent
    have h2 := ih (pre ++ [Branch.finished b.url])
      (drain lib w cookie authorization b sh parent).1
      (drain lib w cookie authorization b sh parent).2
    refine Relation.ReflTransGen.trans h1 ?_
    simpa [drainAll] using h2

/-- The shape of a recursive crawl whose own fetch and extraction succeed: the
pool built at line 112 runs some sequence of atomic steps, all of its goroutines
return, and `crawlURL` returns the parent's slice. -/
lemma crawlURL_recursive_shape (lib : NetURL) (w : World) (baseURL cookie authorization : String)
    (sched : List Nat) (sh sh1 : Shared) (ex : List String)
    (hf : fetchAndExtract lib w baseURL cookie authorization sh = (Except.ok ex, sh1)) :
    ∃ q : Pool,
      Steps lib w cookie authorization
        ⟨⟨(keepNew sh1.visited ex).reverse ++ sh1.visited, sh1.fetched⟩, keepNew sh1.visited ex,
          ((keepNew sh1.visited ex).filter (isSameHost lib baseURL)).map Branch.spawned⟩ q
      ∧ (∀ b ∈ q.branches, b = Branch.finished b.url)
      ∧ crawlURL lib w baseURL cookie authorization true sched sh
          = (Except.ok q.uniqueURLs, q.shared) := by
  let p0 : Pool := ⟨⟨(keepNew sh1.visited ex).reverse ++ sh1.visited, sh1.fetched⟩,
    keepNew sh1.visited ex,
    ((keepNew sh1.visited ex).filter (isSameHost lib baseURL)).map Branch.spawned⟩
  let p := runSched lib w cookie authorization sched p0
  have h1 : Steps lib w cookie authorization p0 p := runSched_steps _ _ _ _ _ _
  have h2 := drainAll_steps lib w cookie authorization p.branches [] p.shared p.uniqueURLs
  simp only [List.nil_append] at h2
  have h3 := Relation.ReflTransGen.trans h1 h2
  refine ⟨_, h3, ?_, ?_⟩
  · intro b hb
    simp only [List.mem_map] at hb
    obtain ⟨b0, _, rfl⟩ := hb
    rfl
  · simp [crawlURL, hf, filterLoop_eq, p, p0]


/-! ## Lemmas: what one atomic step preserves -/

lemma stepBranch_url (lib : NetURL) (w : World) (cookie authorization : String)
    (b : Branch) (sh : Shared) (parent : List String) :
    (stepBranch lib w cookie authorization b sh parent).1.url = b.url := by
  cases b with
  | finished url => rfl
  | filtering url urls acc => cases urls <;> rfl
  | spawned url =>
    cases hf : fetchAndExtract lib w url cookie authorization sh with
    | mk r sh1 => cases r <;> simp [stepBranch, hf, Branch.url]

lemma steps_urls (lib : NetURL) (w : World) (cookie authorization : String) (p q : Pool)
    (h : Steps lib w cookie authorization p q) :
    q.branches.map Branch.url = p.branches.map Branch.url := by
  induction h with
  | refl => rfl
  | tail _ hs ih =>
    cases hs with
    | mk pre b post sh parent =>
      rw [← ih]
      simp [stepBranch_url]

/-- A step leaves the map and the pending URLs alone, or stores one new key and
hands it to some slice. -/
lemma step_effect (lib : NetURL) (w : World) (cookie authorization : String) (p q : Pool)
    (h : Step lib w cookie authorization p q) :
    (q.shared.visited = p.shared.visited ∧ pendM q = pendM p)
      ∨ ∃ u, u ∉ p.shared.visited ∧ q.shared.visited = u :: p.shared.visited
          ∧ pendM q = u ::ₘ pendM p := by
  cases h with
  | mk pre b post sh parent =>
    cases b with
    | finished url => left; simp [stepBranch, pendM]
    | spawned url =>
      left
      have hv := fetchAndExtract_visited lib w url cookie authorization sh
      cases hf : fetchAndExtract lib w url cookie authorization sh with
      | mk r sh1 =>
        rw [hf] at hv
        cases r <;> simp [stepBranch, hf, pendM, accOf] <;> exact hv
    | filtering url urls acc =>
      cases urls with
      | nil =>
        left
        simp only [stepBranch, pendM, List.map_append, List.map_cons, List.sum_append,
          List.sum_cons, accOf, true_and]
        rw [← Multiset.coe_add]
        simp only [Multiset.coe_nil, zero_add]
        abel
      | cons u rest =>
        by_cases hu : u ∈ sh.visited
        · left
          simp [stepBranch, loadOrStore, hu, pendM, accOf]
        · right
          refine ⟨u, hu, by simp [stepBranch, loadOrStore, hu], ?_⟩
          simp only [stepBranch, loadOrStore, hu, if_false, Bool.not_false, if_true, pendM,
            List.map_append, List.map_cons, List.sum_append, List.sum_cons, accOf]
          rw [← Multiset.coe_add, ← Multiset.singleton_add]
          have e : (([u] : List String) : Multiset String) = {u} := rfl
          rw [e]
          abel

lemma steps_invA (lib : NetURL) (w : World) (cookie authorization : String) (v0 : List String)
    (p q : Pool) (h : Steps lib w cookie authorization p q) (hp : InvA v0 p) : InvA v0 q := by
  induction h with
  | refl => exact hp
  | tail _ hs ih =>
    obtain ⟨hn, hv, hd⟩ := ih
    rcases step_effect lib w cookie authorization _ _ hs with ⟨e1, e2⟩ | ⟨u, hu, e1, e2⟩
    · refine ⟨by rw [e2]; exact hn, ?_, ?_⟩
      · intro x; rw [e1, e2]; exact hv x
      · intro x hx; rw [e2] at hx; exact hd x hx
    · have hup : u ∉ pendM _ := fun hx => hu ((hv u).2 (Or.inr hx))
      have hu0 : u ∉ v0 := fun hx => hu ((hv u).2 (Or.inl hx))
      refine ⟨by rw [e2]; exact Multiset.nodup_cons.2 ⟨hup, hn⟩, ?_, ?_⟩
      · intro x
        rw [e1, e2, List.mem_cons, Multiset.mem_cons, hv x]
        tauto
      · intro x hx
        rw [e2, Multiset.mem_cons] at hx
        rcases hx with rfl | hx
        · exact hu0
        · exact hd x hx

lemma step_fetchM (lib : NetURL) (w : World) (cookie authorization : String) (p q : Pool)
    (h : Step lib w cookie authorization p q) : fetchM q ≤ fetchM p := by
  cases h with
  | mk pre b post sh parent =>
    cases b with
    | finished url => simp [stepBranch, fetchM]
    | filtering url urls acc =>
      cases urls with
      | nil => simp [stepBranch, fetchM, startOf]
      | cons u rest => simp [stepBranch, fetchM, startOf]
    | spawned url =>
      have hv := fetchAndExtract_fetched lib w url cookie authorization sh
      have key : ∀ b' : Branch, startOf b' = [] → ∀ sh1 : Shared,
          (sh1.fetched = sh.fetched ∨ sh1.fetched = sh.fetched ++ [url]) →
          fetchM ⟨sh1, parent, pre ++ b' :: post⟩
            ≤ fetchM ⟨sh, parent, pre ++ Branch.spawned url :: post⟩ := by
        intro b' hb' sh1 hs
        have e : startOf (Branch.spawned url) = [url] := rfl
        simp only [fetchM, List.map_append, List.map_cons, List.sum_append, List.sum_cons, hb', e,
          Multiset.coe_nil, zero_add]
        rcases hs with hs | hs
        · rw [hs]
          exact add_le_add_left (add_le_add_left (le_add_of_nonneg_left (zero_le _)) _) _
        · rw [hs, ← Multiset.coe_add]
          apply le_of_eq
          abel
      cases hf : fetchAndExtract lib w url cookie authorization sh with
      | mk r sh1 =>
        rw [hf] at hv
        cases r with
        | error e => simpa [stepBranch, hf] using key (Branch.finished url) rfl sh1 hv
        | ok urls => simpa [stepBranch, hf] using key (Branch.filtering url urls []) rfl sh1 hv

lemma steps_fetchM (lib : NetURL) (w : World) (cookie authorization : String) (p q : Pool)
    (h : Steps lib w cookie authorization p q) : fetchM q ≤ fetchM p := by
  induction h with
  | refl => exact le_refl _
  | tail _ hs ih => exact le_trans (step_fetchM lib w cookie authorization _ _ hs) ih

lemma fetchAndExtract_ok_fetched (lib : NetURL) (w : World) (url cookie authorization : String)
    (sh : Shared) (urls : List String)
    (h : (fetchAndExtract lib w url cookie authorization sh).1 = Except.ok urls) :
    (fetchAndExtract lib w url cookie authorization sh).2.fetched = sh.fetched ++ [url] := by
  cases hc : createRequest w url cookie authorization with
  | error e => simp [fetchAndExtract, hc] at h
  | ok req =>
    have hu := createRequest_url w url cookie authorization req hc
    cases hr : w.roundTrip req with
    | error e => simp [fetchAndExtract, hc, hr, hu]
    | ok body => simp [fetchAndExtract, hc, hr, hu]

lemma fetchAndExtract_crawlPage (lib : NetURL) (w : World) (url cookie authorization : String)
    (sh : Shared) :
    (fetchAndExtract lib w url cookie authorization sh).1
      = crawlPage lib w cookie authorization url :=
  fetchAndExtract_fst lib w url cookie authorization sh ⟨[], []⟩

lemma trackB_mono (lib : NetURL) (w : World) (cookie authorization : String)
    (V V' : List String) (hV : ∀ u ∈ V, u ∈ V') (b : Branch)
    (h : TrackB lib w cookie authorization V b) : TrackB lib w cookie authorization V' b := by
  cases b with
  | spawned url => trivial
  | filtering url todo acc =>
    obtain ⟨urls, h1, h2, h3, h4⟩ := h
    exact ⟨urls, h1, fun u hu => (h2 u hu).imp id (hV u), h3, h4⟩
  | finished url => exact fun urls hu u hx => hV u (h urls hu u hx)

lemma step_visited_mono (lib : NetURL) (w : World) (cookie authorization : String) (p q : Pool)
    (h : Step lib w cookie authorization p q) : ∀ u ∈ p.shared.visited, u ∈ q.shared.visited := by
  intro u hu
  rcases step_effect lib w cookie authorization p q h with ⟨e, _⟩ | ⟨x, _, e, _⟩
  · rw [e]; exact hu
  · rw [e]; exact List.mem_cons_of_mem _ hu

lemma steps_visited_mono (lib : NetURL) (w : World) (cookie authorization : String) (p q : Pool)
    (h : Steps lib w cookie authorization p q) : ∀ u ∈ p.shared.visited, u ∈ q.shared.visited := by
  induction h with
  | refl => exact fun u hu => hu
  | tail _ hs ih =>
    exact fun u hu => step_visited_mono lib w cookie authorization _ _ hs u (ih u hu)

lemma stepBranch_track (lib : NetURL) (w : World) (cookie authorization : String)
    (b : Branch) (sh : Shared) (parent : List String)
    (ht : TrackB lib w cookie authorization sh.visited b) :
    TrackB lib w cookie authorization
        (stepBranch lib w cookie authorization b sh parent).2.1.visited
        (stepBranch lib w cookie authorization b sh parent).1
      ∧ ∀ u ∈ (stepBranch lib w cookie authorization b sh parent).2.2,
          u ∈ parent ∨ ∃ urls, crawlPage lib w cookie authorization b.url = Except.ok urls
            ∧ u ∈ urls := by
  cases b with
  | finished url => exact ⟨ht, fun u hu => Or.inl hu⟩
  | spawned url =>
    have hp := fetchAndExtract_crawlPage lib w url cookie authorization sh
    cases hf : fetchAndExtract lib w url cookie authorization sh with
    | mk r sh1 =>
      rw [hf] at hp
      cases r with
      | error e =>
        refine ⟨?_, fun u hu => Or.inl (by simpa [stepBranch, hf] using hu)⟩
        simp only [stepBranch, hf]
        intro urls hu
        simp only at hp
        rw [← hp] at hu
        cases hu
      | ok urls =>
        refine ⟨?_, fun u hu => Or.inl (by simpa [stepBranch, hf] using hu)⟩
        simp only [stepBranch, hf]
        exact ⟨urls, hp.symm, fun u hu => Or.inl hu, fun u hu => hu, by simp⟩
  | filtering url todo acc =>
    obtain ⟨urls, h1, h2, h3, h4⟩ := ht
    cases todo with
    | nil =>
      constructor
      · simp only [stepBranch]
        intro urls' hu' u hu
        rw [h1] at hu'
        injection hu' with hu'
        subst hu'
        rcases h2 u hu with h | h
        · simp at h
        · exact h
      · intro u hu
        simp only [stepBranch, List.mem_append] at hu
        rcases hu with hu | hu
        · exact Or.inl hu
        · exact Or.inr ⟨urls, h1, h4 u hu⟩
    | cons x rest =>
      refine ⟨?_, fun u hu => Or.inl (by simpa [stepBranch] using hu)⟩
      have hx : x ∈ (loadOrStore sh.visited x).1 := by
        by_cases hxv : x ∈ sh.visited <;> simp [loadOrStore, hxv]
      have hm : ∀ u ∈ sh.visited, u ∈ (loadOrStore sh.visited x).1 := by
        intro u hu
        by_cases hxv : x ∈ sh.visited <;> simp [loadOrStore, hxv, hu]
      refine ⟨urls, h1, ?_, fun u hu => h3 u (List.mem_cons_of_mem _ hu), ?_⟩
      · intro u hu
        rcases h2 u hu with h | h
        · rcases List.mem_cons.1 h with rfl | h
          · exact Or.inr hx
          · exact Or.inl h
        · exact Or.inr (hm u h)
      · intro u hu
        by_cases hxv : x ∈ sh.visited
        · simp only [loadOrStore, hxv, if_true, Bool.not_true, Bool.false_eq_true, if_false] at hu
          exact h4 u hu
        · simp only [loadOrStore, hxv, if_false, Bool.not_false, if_true, List.mem_append,
            List.mem_singleton] at hu
          rcases hu with hu | rfl
          · exact h4 u hu
          · exact h3 u (by simp)

lemma steps_invC (lib : NetURL) (w : World) (cookie authorization : String)
    (uniq subs : List String) (p q : Pool) (h : Steps lib w cookie authorization p q)
    (hp : InvC lib w cookie authorization uniq subs p) :
    InvC lib w cookie authorization uniq subs q := by
  induction h with
  | refl => exact hp
  | tail _ hs ih =>
    have hmono := step_visited_mono lib w cookie authorization _ _ hs
    obtain ⟨ht, hu, hq⟩ := ih
    cases hs with
    | mk pre b post sh parent =>
      have hb := stepBranch_track lib w cookie authorization b sh parent (ht b (by simp))
      have hbu : b.url ∈ subs := hu b (by simp)
      refine ⟨?_, ?_, ?_⟩
      · intro b0 hb0
        simp only [List.mem_append, List.mem_cons] at hb0
        rcases hb0 with h | rfl | h
        · exact trackB_mono lib w cookie authorization _ _ hmono b0 (ht b0 (by simp [h]))
        · exact hb.1
        · exact trackB_mono lib w cookie authorization _ _ hmono b0 (ht b0 (by simp [h]))
      · intro b0 hb0
        simp only [List.mem_append, List.mem_cons] at hb0
        rcases hb0 with h | rfl | h
        · exact hu b0 (by simp [h])
        · rw [stepBranch_url]; exact hbu
        · exact hu b0 (by simp [h])
      · intro u hx
        rcases hb.2 u hx with h | ⟨urls, h1, h2⟩
        · exact hq u h
        · exact Or.inr ⟨b.url, hbu, urls, h1, h2⟩

lemma sum_accOf_finished (bs : List Branch) (h : ∀ b ∈ bs, b = Branch.finished b.url) :
    (bs.map fun b => (accOf b : Multiset String)).sum = 0 := by
  induction bs with
  | nil => rfl
  | cons b bs ih =>
    have hb := h b (by simp)
    have e : accOf b = [] := by rw [hb]; rfl
    simp only [List.map_cons, List.sum_cons, e, Multiset.coe_nil, zero_add]
    exact ih (fun b0 hb0 => h b0 (List.mem_cons_of_mem _ hb0))

lemma sum_accOf_spawned (subs : List String) :
    ((subs.map Branch.spawned).map fun b => (accOf b : Multiset String)).sum = 0 := by
  induction subs with
  | nil => rfl
  | cons u subs ih =>
    have e : accOf (Branch.spawned u) = [] := rfl
    simp only [List.map_cons, List.sum_cons, e, Multiset.coe_nil, zero_add]
    exact ih

lemma sum_startOf_spawned (subs : List String) :
    ((subs.map Branch.spawned).map fun b => (startOf b : Multiset String)).sum
      = (subs : Multiset String) := by
  induction subs with
  | nil => rfl
  | cons u subs ih =>
    have e : startOf (Branch.spawned u) = [u] := rfl
    simp only [List.map_cons, List.sum_cons, e, ih]
    rfl

/-- Everything the invariants say about a recursive crawl whose own fetch and
extraction succeed, with `uniq` the parent's own list and `subs` the spawned URLs. -/
lemma crawlURL_recursive_facts (lib : NetURL) (w : World) (baseURL cookie authorization : String)
    (sched : List Nat) (sh : Shared) (ex : List String)
    (hex : crawlPage lib w cookie authorization baseURL = Except.ok ex) :
    ∃ q : Pool,
      crawlURL lib w baseURL cookie authorization true sched sh = (Except.ok q.uniqueURLs, q.shared)
      ∧ InvA sh.visited q ∧ pendM q = (q.uniqueURLs : Multiset String)
      ∧ ((q.shared.fetched : Multiset String) ≤ ((sh.fetched ++ [baseURL] : List String) : Multiset String)
          + (((keepNew sh.visited ex).filter (isSameHost lib baseURL) : List String) : Multiset String))
      ∧ InvC lib w cookie authorization (keepNew sh.visited ex)
          ((keepNew sh.visited ex).filter (isSameHost lib baseURL)) q
      ∧ (∀ b ∈ q.branches, b = Branch.finished b.url)
      ∧ q.branches.map Branch.url = (keepNew sh.visited ex).filter (isSameHost lib baseURL)
      ∧ ∀ u ∈ keepNew sh.visited ex, u ∈ q.shared.visited := by
  have h1 := fetchAndExtract_crawlPage lib w baseURL cookie authorization sh
  rw [hex] at h1
  have h2 := fetchAndExtract_visited lib w baseURL cookie authorization sh
  have h3 := fetchAndExtract_ok_fetched lib w baseURL cookie authorization sh ex h1
  cases hf : fetchAndExtract lib w baseURL cookie authorization sh with
  | mk r sh1 =>
    rw [hf] at h1 h2 h3
    simp only at h1 h2 h3
    subst h1
    obtain ⟨q, hsteps, hfin, hc⟩ :=
      crawlURL_recursive_shape lib w baseURL cookie authorization sched sh sh1 ex hf
    rw [h2, h3] at hsteps
    have hq0 := sum_accOf_finished q.branches hfin
    refine ⟨q, hc, ?_, ?_, ?_, ?_, hfin, ?_, ?_⟩
    · apply steps_invA lib w cookie authorization sh.visited _ q hsteps
      refine ⟨?_, ?_, ?_⟩
      · simp only [pendM, sum_accOf_spawned, add_zero, Multiset.coe_nodup]
        exact nodup_keepNew _ _
      · intro u
        simp only [pendM, sum_accOf_spawned, add_zero, Multiset.mem_coe, List.mem_append,
          List.mem_reverse]
        tauto
      · intro u hu
        simp only [pendM, sum_accOf_spawned, add_zero, Multiset.mem_coe] at hu
        exact ((mem_keepNew _ _ _).1 hu).2
    · simp [pendM, hq0]
    · have hle := steps_fetchM lib w cookie authorization _ q hsteps
      simp only [fetchM, sum_startOf_spawned] at hle
      exact le_trans (Multiset.le_add_right _ _) hle
    · apply steps_invC lib w cookie authorization _ _ _ q hsteps
      refine ⟨?_, ?_, ?_⟩
      · intro b hb
        simp only [List.mem_map] at hb
        obtain ⟨u, _, rfl⟩ := hb
        trivial
      · intro b hb
        simp only [List.mem_map] at hb
        obtain ⟨u, hu, rfl⟩ := hb
        exact hu
      · intro u hu
        exact Or.inl hu
    · rw [steps_urls lib w cookie authorization _ q hsteps]
      simp [Function.comp_def, Branch.url]
    · intro u hu
      apply steps_visited_mono lib w cookie authorization _ q hsteps
      simp [hu]

/-! ## Theorems -/

/-- C1: the final dedup pass of `main` returns a list without repetition, with
exactly the strings of its input, and it orders them as their first occurrences
are ordered in the input (positions compared with `List.indexOf`, the position of
the first occurrence). -/
theorem mainDedup_first_occurrences (urls : List String) :
    (mainDedup urls).Nodup ∧ (∀ u, u ∈ mainDedup urls ↔ u ∈ urls) ∧
      ∀ x y, (List.indexOf x (mainDedup urls) < List.indexOf y (mainDedup urls)
        ↔ List.indexOf x urls < List.indexOf y urls) := by
  have hmem : ∀ u, u ∈ mainDedup urls ↔ u ∈ urls := by
    intro u
    rw [mainDedup_eq, mem_keepNew]
    simp
  refine ⟨by rw [mainDedup_eq]; exact nodup_keepNew _ _, hmem, ?_⟩
  intro x y
  by_cases hx : x ∈ urls
  · by_cases hy : y ∈ urls
    · rw [mainDedup_eq]
      apply indexOf_keepNew
      · rw [← mainDedup_eq]; exact (hmem x).2 hx
      · rw [← mainDedup_eq]; exact (hmem y).2 hy
    · have h1 : List.indexOf y urls = urls.length := List.indexOf_eq_length.2 hy
      have h2 : List.indexOf y (mainDedup urls) = (mainDedup urls).length :=
        List.indexOf_eq_length.2 (fun h => hy ((hmem y).1 h))
      have h3 : List.indexOf x urls < urls.length := List.indexOf_lt_length.2 hx
      have h4 : List.indexOf x (mainDedup urls) < (mainDedup urls).length :=
        List.indexOf_lt_length.2 ((hmem x).2 hx)
      rw [h1, h2]
      exact ⟨fun _ => h3, fun _ => h4⟩
  · have h1 : List.indexOf x urls = urls.length := List.indexOf_eq_length.2 hx
    have h2 : List.indexOf x (mainDedup urls) = (mainDedup urls).length :=
      List.indexOf_eq_length.2 (fun h => hx ((hmem x).1 h))
    have h3 : List.indexOf y urls ≤ urls.length := List.indexOf_le_length
    have h4 : List.indexOf y (mainDedup urls) ≤ (mainDedup urls).length := List.indexOf_le_length
    rw [h1, h2]
    constructor
    · intro h; omega
    · intro h; omega

/-- C8 (as stated, refuted): `http://a.com/.netrc` has the path extension
`.netrc`, which is non-empty and is none of `.com`, `.org`, `.net`, yet
`hasFileExtension` answers `false`. -/
theorem hasFileExtension_netrc :
    pathExt "http://a.com/.netrc" = ".netrc" ∧ ".netrc" ≠ "" ∧ ".netrc" ≠ ".com"
      ∧ ".netrc" ≠ ".org" ∧ ".netrc" ≠ ".net" ∧ hasFileExtension "http://a.com/.netrc" = false := by
  decide

/-- C8 (amended): `hasFileExtension` answers `true` exactly when the string has a
dot after which neither a dot nor a slash follows (the suffix at that dot is then
the path extension: the suffix starting at the last dot of the last
slash-separated element, and it is non-empty) and the text after that dot does
not begin with `com`, `org` or `net`, i.e. the extension does not start with
`.com`, `.org` or `.net`.  The right-hand side speaks of the characters of the
string only. -/
theorem hasFileExtension_iff (urlStr : String) :
    hasFileExtension urlStr = true ↔
      ∃ pre ext : List Char, urlStr.data = pre ++ '.' :: ext ∧ '.' ∉ ext ∧ '/' ∉ ext
        ∧ ¬ ['c', 'o', 'm'] <+: ext ∧ ¬ ['o', 'r', 'g'] <+: ext ∧ ¬ ['n', 'e', 't'] <+: ext := by
  have key : ∀ ext : List Char, pathExt urlStr = String.mk ('.' :: ext) →
      (hasFileExtension urlStr = true ↔
        (¬ ['c', 'o', 'm'] <+: ext ∧ ¬ ['o', 'r', 'g'] <+: ext ∧ ¬ ['n', 'e', 't'] <+: ext)) := by
    intro ext he
    have hne : (String.mk ('.' :: ext) != "") = true := by
      rw [bne_iff_ne]
      intro h
      have := congrArg String.data h
      simp at this
    have e1 : hasPrefix (String.mk ('.' :: ext)) ".com" = decide (['c', 'o', 'm'] <+: ext) := by
      show List.isPrefixOf ['.', 'c', 'o', 'm'] ('.' :: ext) = _
      rw [Bool.eq_iff_iff]
      simp [List.isPrefixOf_iff_prefix]
    have e2 : hasPrefix (String.mk ('.' :: ext)) ".org" = decide (['o', 'r', 'g'] <+: ext) := by
      show List.isPrefixOf ['.', 'o', 'r', 'g'] ('.' :: ext) = _
      rw [Bool.eq_iff_iff]
      simp [List.isPrefixOf_iff_prefix]
    have e3 : hasPrefix (String.mk ('.' :: ext)) ".net" = decide (['n', 'e', 't'] <+: ext) := by
      show List.isPrefixOf ['.', 'n', 'e', 't'] ('.' :: ext) = _
      rw [Bool.eq_iff_iff]
      simp [List.isPrefixOf_iff_prefix]
    simp only [hasFileExtension, he, hne, e1, e2, e3]
    simp [and_assoc]
  constructor
  · intro h
    have hne : pathExtAux urlStr.data.reverse [] ≠ [] := by
      intro h0
      have : pathExt urlStr = "" := by simp [pathExt, h0]
      simp [hasFileExtension, this] at h
    obtain ⟨t, rest, e, h1, h2⟩ := pathExtAux_ne_nil _ _ hne
    have hext : pathExt urlStr = String.mk ('.' :: t.reverse) := by
      simp [pathExt, e, pathExtAux_split t rest [] h1 h2]
    have hdata : urlStr.data = rest.reverse ++ '.' :: t.reverse := by
      have := congrArg List.reverse e
      simpa using this
    refine ⟨rest.reverse, t.reverse, hdata, by simpa using h1, by simpa using h2, ?_⟩
    exact (key _ hext).1 h
  · rintro ⟨pre, ext, hdata, h1, h2, hp⟩
    have hrev : urlStr.data.reverse = ext.reverse ++ '.' :: pre.reverse := by
      rw [hdata]; simp
    have hext : pathExt urlStr = String.mk ('.' :: ext) := by
      simp [pathExt, hrev,
        pathExtAux_split ext.reverse pre.reverse [] (by simpa using h1) (by simpa using h2)]
    exact (key _ hext).2 hp

/-- C5 (as stated, refuted): both URLs of the claim's own example parse, their
host name is the same and only the port differs, and `isSameHost` answers
`false`. -/
theorem isSameHost_port_differs :
    (goURL.Parse "http://a.com/x").isSome = true ∧ (goURL.Parse "http://a.com:8080/y").isSome = true
      ∧ isSameHost goURL "http://a.com/x" "http://a.com:8080/y" = false := by
  decide

/-- C5 (amended): for two strings that parse, `isSameHost` answers `true` exactly
when the `Host` fields of the parsed URLs are equal; the field is `host` or
`host:port`, so the port takes part in the comparison and the scheme does not. -/
theorem isSameHost_iff (lib : NetURL) (baseURL targetURL : String) (base target : URL)
    (hb : lib.Parse baseURL = some base) (ht : lib.Parse targetURL = some target) :
    isSameHost lib baseURL targetURL = true ↔ base.Host = target.Host := by
  simp [isSameHost, hb, ht]

/-- Witness of `isSameHost_iff`: two URLs that differ in scheme and path only. -/
theorem isSameHost_iff_witness :
    goURL.Parse "http://a.com/x" = some { Scheme := "http", Host := "a.com", Path := "/x" }
      ∧ goURL.Parse "https://a.com/y" = some { Scheme := "https", Host := "a.com", Path := "/y" }
      ∧ (isSameHost goURL "http://a.com/x" "https://a.com/y" = true ↔ "a.com" = "a.com") :=
  ⟨by decide, by decide,
    isSameHost_iff goURL "http://a.com/x" "https://a.com/y"
      { Scheme := "http", Host := "a.com", Path := "/x" }
      { Scheme := "https", Host := "a.com", Path := "/y" } (by decide) (by decide)⟩

/-- C7: for a base against which resolution never yields the empty string (every
base with a scheme, hence every base a crawl can fetch), on a token stream that
ends with end-of-stream `extractURLs` returns, in document order and with
duplicates kept, exactly the resolved values of the non-empty `href` or `src`
attributes of start tags named `a`, `link`, `script` or `img` whose resolution
succeeds, and nothing else; and the fixture of the extraction scenario yields
exactly three URLs. -/
theorem extractURLs_eq_spec (lib : NetURL) (tokens : List Token) (baseURL : String)
    (hne : ∀ v r, makeAbsoluteURL lib baseURL v = some r → r ≠ "") :
    extractURLs lib ⟨tokens, none⟩ baseURL = Except.ok (extractSpec lib tokens baseURL)
      ∧ extractURLs goURL fixture "https://example.com/dir/index.html"
          = Except.ok ["https://example.com/page1", "https://example.com/dir/img.png",
              "https://cdn.example/x.js"] := by
  refine ⟨?_, by decide⟩
  simp [extractURLs, tokenLoop_eq lib baseURL hne]

/-- Witness of `extractURLs_eq_spec`: the fixture against the base
`https://example.com/dir/index.html`, which has the scheme `https`. -/
theorem extractURLs_eq_spec_witness :
    (∀ v r, makeAbsoluteURL goURL "https://example.com/dir/index.html" v = some r → r ≠ "")
      ∧ extractURLs goURL ⟨fixture.tokens, none⟩ "https://example.com/dir/index.html"
          = Except.ok (extractSpec goURL fixture.tokens "https://example.com/dir/index.html")
      ∧ extractSpec goURL fixture.tokens "https://example.com/dir/index.html"
          = ["https://example.com/page1", "https://example.com/dir/img.png",
              "https://cdn.example/x.js"] :=
  ⟨goURL_resolve_ne_empty "https://example.com/dir/index.html"
      { Scheme := "https", Host := "example.com", Path := "/dir/index.html" }
      (by decide) (by decide),
    (extractURLs_eq_spec goURL fixture.tokens "https://example.com/dir/index.html"
      (goURL_resolve_ne_empty "https://example.com/dir/index.html"
        { Scheme := "https", Host := "example.com", Path := "/dir/index.html" }
        (by decide) (by decide))).1,
    by decide⟩

/-! ## Theorems on the sequential paths -/

/-- C2 (as stated, refuted): the page served for the seed `http://a.com/` links to
the seed itself; the seed is among the URLs extracted from the page and is
missing from the result of the non-recursive crawl started as `main` starts it. -/
theorem crawlURL_drops_seed :
    demoWorld.roundTrip ⟨"GET", "http://a.com/", []⟩ = Except.ok demoHome
      ∧ extractURLs goURL demoHome "http://a.com/"
          = Except.ok ["http://a.com/", "http://a.com/x", "http://b.org/y", "http://a.com/x",
              "http://a.com/down"]
      ∧ (crawlURL goURL demoWorld "http://a.com/" "" "" false [] ⟨["http://a.com/"], []⟩).1
          = Except.ok ["http://a.com/x", "http://b.org/y", "http://a.com/down"] := by
  decide

/-- C2 (amended): when the request for the seed can be built and a page that
ends with end-of-stream is served for it, the non-recursive crawl started as
`main` starts it issues exactly one fetch, for the seed, and returns exactly the
URLs extracted from that page other than the seed itself, each of them once. -/
theorem crawlURL_nonrecursive (lib : NetURL) (w : World) (seed cookie authorization : String)
    (sched : List Nat) (req : Request) (tokens : List Token)
    (hreq : createRequest w seed cookie authorization = Except.ok req)
    (hbody : w.roundTrip req = Except.ok ⟨tokens, none⟩) :
    ∃ urls sh extracted,
      crawlURL lib w seed cookie authorization false sched ⟨[seed], []⟩ = (Except.ok urls, sh)
        ∧ extractURLs lib ⟨tokens, none⟩ seed = Except.ok extracted
        ∧ sh.fetched = [seed] ∧ urls.Nodup ∧ ∀ u, u ∈ urls ↔ (u ∈ extracted ∧ u ≠ seed) := by
  have hu := createRequest_url w seed cookie authorization req hreq
  refine ⟨keepNew [seed] (tokenLoop lib seed tokens []),
    ⟨(keepNew [seed] (tokenLoop lib seed tokens [])).reverse ++ [seed], [seed]⟩,
    tokenLoop lib seed tokens [], ?_, ?_, rfl, nodup_keepNew _ _, ?_⟩
  · simp [crawlURL, fetchAndExtract, hreq, hbody, extractURLs, filterLoop_eq, hu]
  · simp [extractURLs]
  · intro u
    rw [mem_keepNew]
    simp

/-- Witness of `crawlURL_nonrecursive` on the small site. -/
theorem crawlURL_nonrecursive_witness :
    ∃ urls sh extracted,
      crawlURL goURL demoWorld "http://a.com/" "" "" false [] ⟨["http://a.com/"], []⟩
          = (Except.ok urls, sh)
        ∧ extractURLs goURL ⟨demoHome.tokens, none⟩ "http://a.com/" = Except.ok extracted
        ∧ sh.fetched = ["http://a.com/"] ∧ urls.Nodup
        ∧ ∀ u, u ∈ urls ↔ (u ∈ extracted ∧ u ≠ "http://a.com/") :=
  crawlURL_nonrecursive goURL demoWorld "http://a.com/" "" "" [] ⟨"GET", "http://a.com/", []⟩
    demoHome.tokens (by decide) (by decide)

/-- C9 (as stated, refuted): the crawl succeeds, the write of `out.txt` fails, an
error is logged and the summary is printed all the same. -/
theorem main_summary_after_write_failure :
    (writeOutput readOnlySys ["http://a.com/x", "http://b.org/y", "http://a.com/down"]
        demoOptions).1
        = some "open out.txt: read-only file system"
      ∧ main goURL demoWorld readOnlySys demoOptions []
        = [Event.errorLog "Error writing output: open out.txt: read-only file system",
            Event.summary 3] := by
  decide

/-- C9 (amended): a run of `main` that reaches the crawl prints the result summary
exactly when the crawl succeeds; when the fetch or the extraction fails the error
is logged and nothing else is shown; when the crawl succeeds and the write fails
the error is logged and the summary, with the count of unique URLs, is printed
after it. -/
theorem main_summary (lib : NetURL) (w : World) (sys : Sys) (options : Options)
    (sched : List Nat) :
    ((∃ n, Event.summary n ∈ main lib w sys options sched) ↔
        ∃ urls, (crawlURL lib w options.URL options.Cookie options.Authorization
          options.Recursive sched ⟨[options.URL], []⟩).1 = Except.ok urls)
      ∧ (∀ e, (crawlURL lib w options.URL options.Cookie options.Authorization
          options.Recursive sched ⟨[options.URL], []⟩).1 = Except.error e →
            main lib w sys options sched = [Event.errorLog ("Error crawling: " ++ e)])
      ∧ (∀ urls e, (crawlURL lib w options.URL options.Cookie options.Authorization
          options.Recursive sched ⟨[options.URL], []⟩).1 = Except.ok urls →
            (writeOutput sys (mainDedup urls) options).1 = some e →
            ∃ shown, main lib w sys options sched
              = shown ++ [Event.errorLog ("Error writing output: " ++ e),
                  Event.summary (mainDedup urls).length]) := by
  refine ⟨?_, ?_, ?_⟩
  · cases hc : (crawlURL lib w options.URL options.Cookie options.Authorization
        options.Recursive sched ⟨[options.URL], []⟩).1 with
    | error e => simp [main, hc]
    | ok urls =>
      simp only [main, hc, Except.ok.injEq, exists_eq', iff_true]
      exact ⟨(mainDedup urls).length, by simp⟩
  · intro e hc
    simp [main, hc]
  · intro urls e hc hw
    exact ⟨(writeOutput sys (mainDedup urls) options).2, by simp [main, hc, hw]⟩

/-- Witness of `main_summary`: on the small site the crawl succeeds, the write
fails, and the run ends with the logged error and the summary. -/
theorem main_summary_witness :
    ∃ shown, main goURL demoWorld readOnlySys demoOptions []
      = shown ++ [Event.errorLog ("Error writing output: " ++ "open out.txt: read-only file system"),
          Event.summary
            (mainDedup ["http://a.com/x", "http://b.org/y", "http://a.com/down"]).length] :=
  (main_summary goURL demoWorld readOnlySys demoOptions []).2.2
    ["http://a.com/x", "http://b.org/y", "http://a.com/down"]
    "open out.txt: read-only file system"
    (by decide) (by decide)

/-! ## Theorems on the concurrent crawl -/

lemma crawlURL_error (lib : NetURL) (w : World) (baseURL cookie authorization : String)
    (recursive : Bool) (sched : List Nat) (sh : Shared) (e : String)
    (h : crawlPage lib w cookie authorization baseURL = Except.error e) :
    crawlURL lib w baseURL cookie authorization recursive sched sh
      = (Except.error e, (fetchAndExtract lib w baseURL cookie authorization sh).2) := by
  have h1 := fetchAndExtract_crawlPage lib w baseURL cookie authorization sh
  rw [h] at h1
  cases hf : fetchAndExtract lib w baseURL cookie authorization sh with
  | mk r sh1 =>
    rw [hf] at h1
    simp only at h1
    subst h1
    simp [crawlURL, hf]

lemma crawlURL_flat (lib : NetURL) (w : World) (baseURL cookie authorization : String)
    (sched : List Nat) (sh : Shared) (ex : List String)
    (h : crawlPage lib w cookie authorization baseURL = Except.ok ex) :
    crawlURL lib w baseURL cookie authorization false sched sh
      = (Except.ok (keepNew sh.visited ex),
          ⟨(keepNew sh.visited ex).reverse ++ sh.visited, sh.fetched ++ [baseURL]⟩) := by
  have h1 := fetchAndExtract_crawlPage lib w baseURL cookie authorization sh
  rw [h] at h1
  have h2 := fetchAndExtract_visited lib w baseURL cookie authorization sh
  have h3 := fetchAndExtract_ok_fetched lib w baseURL cookie authorization sh ex h1
  cases hf : fetchAndExtract lib w baseURL cookie authorization sh with
  | mk r sh1 =>
    rw [hf] at h1 h2 h3
    simp only at h1 h2 h3
    subst h1
    simp [crawlURL, hf, filterLoop_eq, h2, h3]

/-- C10: whenever `crawlURL` returns a list (recursive or not, on any visited map,
under every schedule of its sub-crawls), the list has no string twice and no
string that was in the map before the call, every string of it is in the map
afterwards, and the final dedup pass of `main` returns it unchanged. -/
theorem crawlURL_result_fresh (lib : NetURL) (w : World) (baseURL cookie authorization : String)
    (recursive : Bool) (sched : List Nat) (sh sh' : Shared) (result : List String)
    (h : crawlURL lib w baseURL cookie authorization recursive sched sh = (Except.ok result, sh')) :
    result.Nodup ∧ (∀ u ∈ result, u ∉ sh.visited) ∧ (∀ u ∈ result, u ∈ sh'.visited)
      ∧ mainDedup result = result := by
  have key : result.Nodup ∧ (∀ u ∈ result, u ∉ sh.visited) ∧ (∀ u ∈ result, u ∈ sh'.visited) := by
    cases hp : crawlPage lib w cookie authorization baseURL with
    | error e =>
      rw [crawlURL_error lib w baseURL cookie authorization recursive sched sh e hp] at h
      cases h
    | ok ex =>
      cases recursive with
      | false =>
        rw [crawlURL_flat lib w baseURL cookie authorization sched sh ex hp] at h
        injection h with h1 h2
        injection h1 with h1
        subst h1
        subst h2
        refine ⟨nodup_keepNew _ _, fun u hu => ((mem_keepNew _ _ _).1 hu).2, ?_⟩
        intro u hu
        simp [hu]
      | true =>
        obtain ⟨q, hc, ⟨hn, hv, hd⟩, hq, _⟩ :=
          crawlURL_recursive_facts lib w baseURL cookie authorization sched sh ex hp
        rw [hc] at h
        injection h with h1 h2
        injection h1 with h1
        subst h1
        subst h2
        rw [hq] at hn hv hd
        refine ⟨Multiset.coe_nodup.1 hn, fun u hu => hd u (Multiset.mem_coe.2 hu), ?_⟩
        intro u hu
        exact (hv u).2 (Or.inr (Multiset.mem_coe.2 hu))
  refine ⟨key.1, key.2.1, key.2.2, ?_⟩
  rw [mainDedup_eq]
  exact keepNew_eq_self [] result key.1 (fun u _ => by simp)

/-- Witness of `crawlURL_result_fresh`: a recursive crawl of the small site in
which the goroutine of `/down` runs first and fails. -/
theorem crawlURL_result_fresh_witness :
    ["http://a.com/x", "http://b.org/y", "http://a.com/down", "http://a.com/z"].Nodup
      ∧ (∀ u ∈ ["http://a.com/x", "http://b.org/y", "http://a.com/down", "http://a.com/z"],
          u ∉ ["http://a.com/"])
      ∧ (∀ u ∈ ["http://a.com/x", "http://b.org/y", "http://a.com/down", "http://a.com/z"],
          u ∈ ["http://a.com/z", "http://a.com/down", "http://b.org/y", "http://a.com/x",
            "http://a.com/"])
      ∧ mainDedup ["http://a.com/x", "http://b.org/y", "http://a.com/down", "http://a.com/z"]
          = ["http://a.com/x", "http://b.org/y", "http://a.com/down", "http://a.com/z"] :=
  crawlURL_result_fresh goURL demoWorld "http://a.com/" "" "" true [1, 0, 0, 1, 0]
    ⟨["http://a.com/"], []⟩
    ⟨["http://a.com/z", "http://a.com/down", "http://b.org/y", "http://a.com/x", "http://a.com/"],
      ["http://a.com/", "http://a.com/down", "http://a.com/x"]⟩
    ["http://a.com/x", "http://b.org/y", "http://a.com/down", "http://a.com/z"] (by decide)

/-- C3: in a top-level crawl started as `main` starts it, on the visited map that
holds the seed, recursive or not and under every schedule of the sub-crawls, the
sequence of URLs handed to the fetcher has no repetition. -/
theorem crawlURL_fetches_once (lib : NetURL) (w : World) (seed cookie authorization : String)
    (recursive : Bool) (sched : List Nat) :
    (crawlURL lib w seed cookie authorization recursive sched ⟨[seed], []⟩).2.fetched.Nodup := by
  cases hp : crawlPage lib w cookie authorization seed with
  | error e =>
    rw [crawlURL_error lib w seed cookie authorization recursive sched _ e hp]
    rcases fetchAndExtract_fetched lib w seed cookie authorization ⟨[seed], []⟩ with h | h
    · rw [h]; simp
    · rw [h]; simp
  | ok ex =>
    cases recursive with
    | false =>
      rw [crawlURL_flat lib w seed cookie authorization sched _ ex hp]
      simp
    | true =>
      obtain ⟨q, hc, _, _, hle, _⟩ :=
        crawlURL_recursive_facts lib w seed cookie authorization sched ⟨[seed], []⟩ ex hp
      rw [hc]
      apply Multiset.coe_nodup.1
      refine Multiset.nodup_of_le hle ?_
      rw [Multiset.coe_add, Multiset.coe_nodup]
      simp only [List.nil_append, List.singleton_append, List.nodup_cons, List.mem_filter,
        not_and]
      refine ⟨?_, (nodup_keepNew _ _).filter _⟩
      intro hm
      exact absurd (List.mem_singleton.2 rfl) ((mem_keepNew _ _ _).1 hm).2

/-- C4: in a recursive crawl, under every schedule, every URL handed to the
fetcher during the call is the seed or a URL `u` with `isSameHost(seed, u)`, and
when the crawl returns a list, every URL that passed the visited filter (every
key the call added to the map), off-host ones included, is in that list. -/
theorem crawlURL_host_boundary (lib : NetURL) (w : World) (seed cookie authorization : String)
    (sched : List Nat) (sh : Shared) :
    (∀ u ∈ (crawlURL lib w seed cookie authorization true sched sh).2.fetched,
        u ∈ sh.fetched ∨ u = seed ∨ isSameHost lib seed u = true)
      ∧ ∀ result, (crawlURL lib w seed cookie authorization true sched sh).1 = Except.ok result →
          ∀ u ∈ (crawlURL lib w seed cookie authorization true sched sh).2.visited,
            u ∉ sh.visited → u ∈ result := by
  cases hp : crawlPage lib w cookie authorization seed with
  | error e =>
    rw [crawlURL_error lib w seed cookie authorization true sched _ e hp]
    refine ⟨?_, fun result h => by cases h⟩
    intro u hu
    rcases fetchAndExtract_fetched lib w seed cookie authorization sh with h | h
    · rw [h] at hu; exact Or.inl hu
    · rw [h] at hu
      rcases List.mem_append.1 hu with hu | hu
      · exact Or.inl hu
      · exact Or.inr (Or.inl (List.mem_singleton.1 hu))
  | ok ex =>
    obtain ⟨q, hc, ⟨_, hv, _⟩, hq, hle, _⟩ :=
      crawlURL_recursive_facts lib w seed cookie authorization sched sh ex hp
    rw [hc]
    constructor
    · intro u hu
      have hm := Multiset.mem_of_le hle (Multiset.mem_coe.2 hu)
      simp only [Multiset.mem_add, Multiset.mem_coe, List.mem_append, List.mem_singleton,
        List.mem_filter] at hm
      rcases hm with (hm | hm) | hm
      · exact Or.inl hm
      · exact Or.inr (Or.inl hm)
      · exact Or.inr (Or.inr hm.2)
    · intro result hr u hu hn
      injection hr with hr
      subst hr
      rcases (hv u).1 hu with h | h
      · exact absurd h hn
      · rw [hq] at h
        exact Multiset.mem_coe.1 h

/-- Witness of `crawlURL_host_boundary` on the small site: the off-host URL
`http://b.org/y` was added to the map and is in the returned list. -/
theorem crawlURL_host_boundary_witness :
    "http://b.org/y" ∈ ["http://a.com/x", "http://b.org/y", "http://a.com/down", "http://a.com/z"] :=
  (crawlURL_host_boundary goURL demoWorld "http://a.com/" "" "" [1, 0, 0, 1, 0]
    ⟨["http://a.com/"], []⟩).2
    ["http://a.com/x", "http://b.org/y", "http://a.com/down", "http://a.com/z"] (by decide)
    "http://b.org/y" (by decide) (by decide)

/-- C6: a recursive crawl whose own fetch and extraction succeed returns a list
under every schedule and whatever sub-crawls fail; every URL of the list was
extracted from the seed page or from the page of a spawned sub-crawl that
succeeded (a failed sub-crawl contributes nothing); and every URL extracted
from the seed page or from such a page that was not in the visited map when the
call started is in the list.  A sub-crawl is spawned for the URLs of the seed
page that were not in the map and for which `isSameHost` holds. -/
theorem crawlURL_failure_isolation (lib : NetURL) (w : World)
    (seed cookie authorization : String) (sched : List Nat) (sh : Shared) (ex : List String)
    (hseed : crawlPage lib w cookie authorization seed = Except.ok ex) :
    ∃ result sh',
      crawlURL lib w seed cookie authorization true sched sh = (Except.ok result, sh')
      ∧ (∀ u ∈ result, u ∈ ex ∨ ∃ sub urls, sub ∈ ex ∧ sub ∉ sh.visited
          ∧ isSameHost lib seed sub = true
          ∧ crawlPage lib w cookie authorization sub = Except.ok urls ∧ u ∈ urls)
      ∧ ∀ u, u ∉ sh.visited →
          (u ∈ ex ∨ ∃ sub urls, sub ∈ ex ∧ sub ∉ sh.visited ∧ isSameHost lib seed sub = true
            ∧ crawlPage lib w cookie authorization sub = Except.ok urls ∧ u ∈ urls) →
          u ∈ result := by
  obtain ⟨q, hc, ⟨_, hv, _⟩, hq, _, ⟨ht, _, hprov⟩, hfin, hurls, hown⟩ :=
    crawlURL_recursive_facts lib w seed cookie authorization sched sh ex hseed
  have hsub : ∀ sub, sub ∈ (keepNew sh.visited ex).filter (isSameHost lib seed) ↔
      (sub ∈ ex ∧ sub ∉ sh.visited ∧ isSameHost lib seed sub = true) := by
    intro sub
    rw [List.mem_filter, mem_keepNew]
    tauto
  refine ⟨q.uniqueURLs, q.shared, hc, ?_, ?_⟩
  · intro u hu
    rcases hprov u hu with h | ⟨sub, hs, urls, h1, h2⟩
    · exact Or.inl ((mem_keepNew _ _ _).1 h).1
    · obtain ⟨a, b, c⟩ := (hsub sub).1 hs
      exact Or.inr ⟨sub, urls, a, b, c, h1, h2⟩
  · intro u hn hu
    have hvis : u ∈ q.shared.visited := by
      rcases hu with h | ⟨sub, urls, a, b, c, h1, h2⟩
      · exact hown u ((mem_keepNew _ _ _).2 ⟨h, hn⟩)
      · have hs : sub ∈ q.branches.map Branch.url := by
          rw [hurls]; exact (hsub sub).2 ⟨a, b, c⟩
        obtain ⟨b0, hb0, rfl⟩ := List.mem_map.1 hs
        have hb1 := ht b0 hb0
        rw [hfin b0 hb0] at hb1
        exact hb1 urls h1 u h2
    rcases (hv u).1 hvis with h | h
    · exact absurd h hn
    · rw [hq] at h
      exact Multiset.mem_coe.1 h

/-- Witness of `crawlURL_failure_isolation` on the small site, where the
sub-crawl of `/down` fails and the one of `/x` succeeds. -/
theorem crawlURL_failure_isolation_witness :
    crawlPage goURL demoWorld "" "" "http://a.com/down"
        = Except.error "dial tcp: connection refused"
      ∧ ∃ result sh',
        crawlURL goURL demoWorld "http://a.com/" "" "" true [1, 0, 0, 1, 0] ⟨["http://a.com/"], []⟩
          = (Except.ok result, sh')
        ∧ (∀ u ∈ result, u ∈ ["http://a.com/", "http://a.com/x", "http://b.org/y",
              "http://a.com/x", "http://a.com/down"]
            ∨ ∃ sub urls, sub ∈ ["http://a.com/", "http://a.com/x", "http://b.org/y",
              "http://a.com/x", "http://a.com/down"] ∧ sub ∉ ["http://a.com/"]
            ∧ isSameHost goURL "http://a.com/" sub = true
            ∧ crawlPage goURL demoWorld "" "" sub = Except.ok urls ∧ u ∈ urls)
        ∧ ∀ u, u ∉ ["http://a.com/"] →
          (u ∈ ["http://a.com/", "http://a.com/x", "http://b.org/y", "http://a.com/x",
              "http://a.com/down"]
            ∨ ∃ sub urls, sub ∈ ["http://a.com/", "http://a.com/x", "http://b.org/y",
              "http://a.com/x", "http://a.com/down"] ∧ sub ∉ ["http://a.com/"]
            ∧ isSameHost goURL "http://a.com/" sub = true
            ∧ crawlPage goURL demoWorld "" "" sub = Except.ok urls ∧ u ∈ urls) →
          u ∈ result :=
  ⟨by decide,
    crawlURL_failure_isolation goURL demoWorld "http://a.com/" "" "" [1, 0, 0, 1, 0]
      ⟨["http://a.com/"], []⟩
      ["http://a.com/", "http://a.com/x", "http://b.org/y", "http://a.com/x", "http://a.com/down"]
      (by decide)⟩

end Cruwler
